import Mathlib

/-!
Verification of the zip-stream repository: a streaming ZIP archive encoder
(`zip.c` / `zip.h`) built on a generic growable array (`varray.c` / `varray.h`).

The C sources are shallowly embedded below:
* machine integers become `Nat` with explicit `% 2 ^ 32` / `% 2 ^ 16` at every
  point where the C code stores into a `uint32_t` / `uint16_t`;
* the user-supplied output sink callback becomes an oracle `ok : Nat → Bool`
  deciding the success of the i-th sink call, together with a trace of the
  bytes handed to the sink on successful calls;
* the zlib compression engine (an external collaborator of this library) is
  an oracle as well: each iteration of the drain loop in `_deflate` either
  fails (`none`, modelling `deflate` returning a negative status) or produces
  a chunk of compressed bytes (`some chunk`); zlib's `crc32` is an oracle
  parameter `crcUpd`, and the outcome of `deflateReset` is a boolean
  parameter of `zip_entry_add`.
Every encoder definition mirrors the corresponding C function statement by
statement; comments cite the C names.
-/

namespace ZipStream

/-! ### Little-endian serialization (`_write16_le`, `_write32_le` in zip.c)

`_write16_le` emits `[input & 0xff, (input >> 8) & 0xff]`, `_write32_le`
the analogous four bytes.  Bytes are modelled as `Nat` values `< 256`. -/

def le16 (n : Nat) : List Nat :=
  [n % 256, n / 2 ^ 8 % 256]

def le32 (n : Nat) : List Nat :=
  [n % 256, n / 2 ^ 8 % 256, n / 2 ^ 16 % 256, n / 2 ^ 24 % 256]

/-! ### The growable array (`varray.h` / `varray.c`)

The C var array is a heap block `{capacity, len, data[]}` accessed through a
pointer to `data`.  We model it as a structure whose `data` field is the list
of the `len` initialized elements (the uninitialized tail of the buffer
carries no information). -/

structure varray (α : Type) where
  /-- `varray_t.capacity`: size of the buffer in element units. -/
  capacity : Nat
  /-- `varray_t.len`: number of elements stored. -/
  len : Nat
  /-- the initialized prefix of the buffer, `len` elements in reachable states. -/
  data : List α
  deriving DecidableEq

/-- `_varray_init` (varray.c): `if (num_elems == 0) num_elems = 1;` then a
fresh array with that capacity and length 0. -/
def varrayInit (α : Type) (num_elems : Nat) : varray α :=
  { capacity := if num_elems = 0 then 1 else num_elems, len := 0, data := [] }

/-- `_varray_resize` (varray.c): `realloc` to capacity `n`.  It is only ever
invoked by the encoder with `n ≥ len`, so the initialized prefix survives
the reallocation unchanged. -/
def varrayResize {α : Type} (va : varray α) (n : Nat) : varray α :=
  { va with capacity := n }

/-- `_va_double_size` (varray.h): resize to `len * 2`. -/
def vaDoubleSize {α : Type} (va : varray α) : varray α :=
  varrayResize va (va.len * 2)

/-- `_resize_if_req` (varray.h): double the capacity iff `capacity ≤ len`. -/
def resizeIfReq {α : Type} (va : varray α) : varray α :=
  if va.capacity ≤ va.len then vaDoubleSize va else va

/-- `varray_push` (varray.h): `_resize_if_req(ptr), ptr[len++] = elem`. -/
def varrayPush {α : Type} (va : varray α) (elem : α) : varray α :=
  let va' := resizeIfReq va
  { va' with len := va'.len + 1, data := va'.data ++ [elem] }

/-- `varray_pop` (varray.h): `ptr[--len]` (undefined on an empty array;
callers must check the length first). -/
def varrayPop {α : Type} [Inhabited α] (va : varray α) : α × varray α :=
  (va.data.getLastD default, { va with len := va.len - 1, data := va.data.dropLast })

/-- `varray_last` (varray.h): `ptr[len - 1]`. -/
def varrayLast {α : Type} [Inhabited α] (va : varray α) : α :=
  va.data.getLastD default

/-- `varray_len` (varray.h). -/
def varrayLen {α : Type} (va : varray α) : Nat := va.len

/-- `varray_capacity` (varray.h). -/
def varrayCapacity {α : Type} (va : varray α) : Nat := va.capacity

/-- Pushing a whole list one element at a time. -/
def varrayPushList {α : Type} (va : varray α) (xs : List α) : varray α :=
  xs.foldl varrayPush va

/-- Reachable-state invariant of a var array built by pushes from
`varrayInit _ 1`: the data list realizes `len`, and the capacity is the
least power of two that accommodates `len` (capacity `1 = 2 ^ 0` when empty). -/
def CapInv {α : Type} (va : varray α) : Prop :=
  va.data.length = va.len ∧
    ∃ j, va.capacity = 2 ^ j ∧ va.len ≤ 2 ^ j ∧
      (va.len = 0 → j = 0) ∧ (1 ≤ va.len → 2 ^ j < 2 * va.len)

/-! ### MS-DOS timestamps (`_get_dos_time`, `_get_dos_date` in zip.c) -/

/-- `struct zip_datetime` (zip.h); every field is C `unsigned`. -/
structure zip_datetime where
  year : Nat
  month : Nat
  day : Nat
  hours : Nat
  minutes : Nat
  seconds : Nat
  deriving DecidableEq

/-- `_get_dos_time` (zip.c):
`((seconds / 2) & 0x1f) | ((minutes & 0x3f) << 5) | ((hours & 0x1f) << 11)`. -/
def getDosTime (dt : zip_datetime) : Nat :=
  ((dt.seconds / 2) &&& 0x1f) ||| ((dt.minutes &&& 0x3f) <<< 5) |||
    ((dt.hours &&& 0x1f) <<< 11)

/-- `_get_dos_date` (zip.c):
`(day & 0x1f) | ((month & 0x0f) << 5) | (((year - 1980) & 0x7f) << 9)`;
`year` is C `unsigned`, so `year - 1980` is computed modulo `2 ^ 32`. -/
def getDosDate (dt : zip_datetime) : Nat :=
  (dt.day &&& 0x1f) ||| ((dt.month &&& 0x0f) <<< 5) |||
    ((((dt.year + 2 ^ 32 - 1980) % 2 ^ 32) &&& 0x7f) <<< 9)

/-! ### The output sink

`zip_out_cb_t` is a user callback receiving a byte buffer and returning
success or failure.  `ok i` decides the outcome of the i-th call; `output`
accumulates the bytes of the successful calls in order, and `passed` their
total count. -/

structure SinkSt where
  ok : Nat → Bool
  idx : Nat
  output : List Nat
  passed : Nat

/-- One invocation of the output callback with buffer `d`. -/
def sinkWrite (s : SinkSt) (d : List Nat) : Bool × SinkSt :=
  if s.ok s.idx then
    (true, { s with idx := s.idx + 1, output := s.output ++ d,
                    passed := s.passed + d.length })
  else
    (false, { s with idx := s.idx + 1 })

/-- A sink whose every call succeeds ("all sink writes succeeding"). -/
def AllOk (s : SinkSt) : Prop := ∀ i, s.ok i = true

/-- The fresh all-accepting sink used to run concrete archives. -/
def allOkSink : SinkSt :=
  { ok := fun _ => true, idx := 0, output := [], passed := 0 }

/-- A chain of `WRITE_LE` field writes sharing one `bytes_written` counter,
short-circuiting on the first failed sink call exactly like the
`!WRITE_LE(...) || !WRITE_LE(...) || ...` chains in zip.c.  `_write_le`
increments the counter by the field size before invoking the callback, so
the returned count includes the field whose write failed. -/
def writeFields (s : SinkSt) : List (List Nat) → Nat × Bool × SinkSt
  | [] => (0, true, s)
  | f :: rest =>
    match sinkWrite s f with
    | (true, s') =>
      let r := writeFields s' rest
      (f.length + r.1, r.2.1, r.2.2)
    | (false, s') => (f.length, false, s')

/-! ### The ZIP encoder state (`zip.h`) -/

/-- `ZIP_ENTRY_MAX_NAME_LEN` (zip.h): maximum entry-name length, not
counting the terminating null character. -/
def ZIP_ENTRY_MAX_NAME_LEN : Nat := 127

/-- `zip_entry_t` (zip.h).  `offset`, `crc`, `size`, `size_compressed` are
`uint32_t`; `time`, `date` are `uint16_t`; `name` is the C string content
(the terminating `'\0'` that zip.c stores after the copied bytes is implicit
in the list representation). -/
structure zip_entry_t where
  offset : Nat
  crc : Nat
  size : Nat
  size_compressed : Nat
  name : List Nat
  time : Nat
  date : Nat
  deriving DecidableEq, Inhabited

/-- `zip_t` (zip.h) minus the collaborator handles (`z_stream`, callback
pointers, staging buffer), which live in the oracles.  `entries` is the
`data` list of the entry var array (`varray_push` appends, as proved below
for the varray model). -/
structure zip_t where
  entries : List zip_entry_t
  /-- `size_t bytes_written`. -/
  bytes_written : Nat
  /-- `size_t central_dir_offset`. -/
  central_dir_offset : Nat
  /-- `bool entry_opened`. -/
  entry_opened : Bool
  deriving DecidableEq

/-- The encoder state produced by a successful `zip_init` (zip.c):
`bytes_written = 0`, `central_dir_offset = 0`, `entry_opened = false`,
entry array fresh (capacity 1, no elements). -/
def zipInit : zip_t :=
  { entries := [], bytes_written := 0, central_dir_offset := 0,
    entry_opened := false }

/-- Rewrites the last element of a list, as the `CUR_ENTRY(z) = ...`
assignments in zip.c do (the current entry is `varray_last(z->entries)`). -/
def updateLast {α : Type} (f : α → α) : List α → List α
  | [] => []
  | [e] => [f e]
  | e :: rest => e :: updateLast f rest

/-- `CUR_ENTRY(z)` read access: `varray_last(z->entries)`. -/
def lastEntry (z : zip_t) : zip_entry_t := z.entries.getLastD default

/-- The drain loop of `_deflate` (zip.c).  Each iteration calls zlib's
`deflate` into the 4 KiB staging buffer and hands the produced chunk to the
sink; `none` models `deflate` returning a negative status (the loop aborts
before calling the sink), `some chunk` a successful call producing `chunk`.
On a successful sink call the current entry's `size_compressed` (a
`uint32_t`) and `z->bytes_written` grow by the chunk length. -/
def deflateDrain (z : zip_t) (s : SinkSt) :
    List (Option (List Nat)) → Bool × zip_t × SinkSt
  | [] => (true, z, s)
  | none :: _ => (false, z, s)
  | some chunk :: rest =>
    match sinkWrite s chunk with
    | (true, s') =>
      let z' : zip_t :=
        { z with
          entries := updateLast
            (fun e => { e with
              size_compressed := (e.size_compressed + chunk.length) % 2 ^ 32 })
            z.entries,
          bytes_written := z.bytes_written + chunk.length }
      deflateDrain z' s' rest
    | (false, s') => (false, z, s')

/-- `_deflate` (zip.c): first `CUR_ENTRY(z).size += data_len` (a `uint32_t`
counter), then the drain loop. -/
def zipDeflate (z : zip_t) (s : SinkSt) (data_len : Nat)
    (iters : List (Option (List Nat))) : Bool × zip_t × SinkSt :=
  let z1 : zip_t :=
    { z with
      entries := updateLast
        (fun e => { e with size := (e.size + data_len) % 2 ^ 32 }) z.entries }
  deflateDrain z1 s iters

/-- The eleven fixed fields of `struct zip_local_file_header` in the order
`zip_entry_add` writes them: signature `0x04034b50`, version 20, flags with
bit 3 set, method 8 (DEFLATE), time, date, zero crc, zero compressed size,
zero uncompressed size, name length, zero extra-field length. -/
def lfhFields (fname_length time date : Nat) : List (List Nat) :=
  [le32 0x04034b50, le16 20, le16 8, le16 8, le16 time, le16 date,
   le32 0, le32 0, le32 0, le16 fname_length, le16 0]

/-- The entry record `zip_entry_add` builds before writing the local
header: `crc = crc32(0, Z_NULL, 0) = 0`, zero size counters, the name
truncated to `ZIP_ENTRY_MAX_NAME_LEN` bytes, `offset = z->bytes_written`
stored into a `uint32_t` field, and the packed timestamp. -/
def addEntry (z : zip_t) (filename : List Nat) (dt : zip_datetime) :
    zip_entry_t :=
  { crc := 0, size := 0, size_compressed := 0,
    name := filename.take (min filename.length ZIP_ENTRY_MAX_NAME_LEN),
    offset := z.bytes_written % 2 ^ 32,
    date := getDosDate dt, time := getDosTime dt }

/-- `zip_entry_add` (zip.c).  `filename` is the byte content of the C
string argument; `resetOk` is the outcome of the final `deflateReset`
call. -/
def zip_entry_add (z : zip_t) (s : SinkSt) (filename : List Nat)
    (dt : zip_datetime) (resetOk : Bool) : Bool × zip_t × SinkSt :=
  if z.entry_opened then (false, z, s)
  else
    -- entry_name_len = strlen(filename), truncated to ZIP_ENTRY_MAX_NAME_LEN
    let entry_name_len := min filename.length ZIP_ENTRY_MAX_NAME_LEN
    let entry : zip_entry_t := addEntry z filename dt
    match writeFields s (lfhFields entry_name_len entry.time entry.date) with
    | (_, false, s1) => (false, z, s1)
    | (bw, true, s1) =>
      match sinkWrite s1 entry.name with
      | (false, s2) => (false, z, s2)
      | (true, s2) =>
        -- entry_opened = true; varray_push; bytes_written update; deflateReset
        let z' : zip_t :=
          { z with entry_opened := true,
                   entries := z.entries ++ [entry],
                   bytes_written := z.bytes_written + bw + entry_name_len }
        (resetOk, z', s2)

/-- `zip_entry_update` (zip.c).  `crcUpd` is zlib's `crc32`; `iters` drives
the `_deflate` drain loop. -/
def zip_entry_update (z : zip_t) (s : SinkSt) (data : List Nat)
    (crcUpd : Nat → List Nat → Nat) (iters : List (Option (List Nat))) :
    Bool × zip_t × SinkSt :=
  if !z.entry_opened then (false, z, s)
  else if data.length = 0 then (true, z, s)
  else
    -- CUR_ENTRY(z).crc = crc32(CUR_ENTRY(z).crc, data, data_len)
    let newEntries :=
      updateLast (fun e => { e with crc := crcUpd e.crc data % 2 ^ 32 })
        z.entries
    let z1 : zip_t := { z with entries := newEntries }
    zipDeflate z1 s data.length iters

/-- The data-descriptor record fields in the order `zip_entry_end` writes
them: signature `0x08074b50`, final crc, compressed size, uncompressed
size. -/
def ddFields (e : zip_entry_t) : List (List Nat) :=
  [le32 0x08074b50, le32 e.crc, le32 e.size_compressed, le32 e.size]

/-- `zip_entry_end` (zip.c): a no-op success when no entry is open;
otherwise flush via `_deflate(z, Z_FINISH, NULL, 0)`, then write the data
descriptor, then account the descriptor bytes and clear `entry_opened`. -/
def zip_entry_end (z : zip_t) (s : SinkSt)
    (iters : List (Option (List Nat))) : Bool × zip_t × SinkSt :=
  if !z.entry_opened then (true, z, s)
  else
    match zipDeflate z s 0 iters with
    | (false, z1, s1) => (false, z1, s1)
    | (true, z1, s1) =>
      match writeFields s1 (ddFields (lastEntry z1)) with
      | (_, false, s2) => (false, z1, s2)
      | (bw, true, s2) =>
        (true, { z1 with bytes_written := z1.bytes_written + bw,
                         entry_opened := false }, s2)

/-- The seventeen fixed fields of `struct zip_central_dir` in the order
`_write_cd_file_header` writes them. -/
def cdFields (e : zip_entry_t) : List (List Nat) :=
  [le32 0x02014b50, le16 0, le16 20, le16 8, le16 8, le16 e.time, le16 e.date,
   le32 e.crc, le32 e.size_compressed, le32 e.size, le16 e.name.length,
   le16 0, le16 0, le16 0, le16 0, le32 0, le32 e.offset]

/-- All bytes a successful `_write_cd_file_header` hands to the sink for
entry `e`: the 46 fixed bytes followed by the name. -/
def cdRecordBytes (e : zip_entry_t) : List Nat :=
  (cdFields e).flatten ++ e.name

/-- `_write_cd_file_header` (zip.c) for a single entry record `e`
(the C function receives the index `entry_num` and reads
`z->entries[entry_num]`, which the loop in `zip_end` never modifies). -/
def writeCdFileHeader (z : zip_t) (s : SinkSt) (e : zip_entry_t) :
    Bool × zip_t × SinkSt :=
  match writeFields s (cdFields e) with
  | (_, false, s1) => (false, z, s1)
  | (bw, true, s1) =>
    match sinkWrite s1 e.name with
    | (false, s2) => (false, z, s2)
    | (true, s2) =>
      (true, { z with bytes_written := z.bytes_written + bw + e.name.length },
       s2)

/-- The `for (i = 0; i < varray_len(z->entries); i++)` loop of `zip_end`,
iterating over the (unchanging) entry records in insertion order. -/
def writeCdLoop (z : zip_t) (s : SinkSt) :
    List zip_entry_t → Bool × zip_t × SinkSt
  | [] => (true, z, s)
  | e :: rest =>
    match writeCdFileHeader z s e with
    | (false, z', s') => (false, z', s')
    | (true, z', s') => writeCdLoop z' s' rest

/-- The eight fields of `struct zip_eof_central_dir` in the order
`_write_eocd` writes them: signature `0x06054b50`, disk 0, start disk 0,
the entry count twice (each a `uint16_t`), central-directory size and
offset (each a `uint32_t`), zero comment length. -/
def eocdFields (num_entries central_dir_size offset : Nat) : List (List Nat) :=
  [le32 0x06054b50, le16 0, le16 0, le16 (num_entries % 2 ^ 16),
   le16 (num_entries % 2 ^ 16), le32 (central_dir_size % 2 ^ 32),
   le32 (offset % 2 ^ 32), le16 0]

/-- `_write_eocd` (zip.c).  Note: the C function accumulates the record
size in a local counter but never adds it to `z->bytes_written`, so the
encoder state is returned unchanged. -/
def writeEocd (z : zip_t) (s : SinkSt) : Bool × SinkSt :=
  let r := writeFields s
    (eocdFields z.entries.length (z.bytes_written - z.central_dir_offset)
      z.central_dir_offset)
  (r.2.1, r.2.2)

/-- `zip_end` (zip.c): refuse while an entry is open, capture
`central_dir_offset = bytes_written`, write one central-directory record
per entry in insertion order, then the end-of-central-directory record. -/
def zip_end (z : zip_t) (s : SinkSt) : Bool × zip_t × SinkSt :=
  if z.entry_opened then (false, z, s)
  else
    let z0 : zip_t := { z with central_dir_offset := z.bytes_written }
    match writeCdLoop z0 s z0.entries with
    | (false, z1, s1) => (false, z1, s1)
    | (true, z1, s1) =>
      let r := writeEocd z1 s1
      (r.1, z1, r.2)

/-- `zip_get_num_entries` (zip.c): `varray_len(z->entries)`. -/
def zip_get_num_entries (z : zip_t) : Nat := z.entries.length

/-! ### Whole-archive runs: OpenEntry / UpdateEntry* / CloseEntry cycles -/

/-- One complete entry cycle: the name and datetime passed to
`zip_entry_add`, the data chunks passed to `zip_entry_update` (each with
the compressed chunks its drain loop produces), and the compressed chunks
produced by the closing flush. -/
structure Cycle where
  name : List Nat
  dt : zip_datetime
  upds : List (List Nat × List (List Nat))
  closeChunks : List (List Nat)

/-- Runs the `zip_entry_update` calls of a cycle, stopping at the first
failure. -/
def runUpds (crcUpd : Nat → List Nat → Nat) (z : zip_t) (s : SinkSt) :
    List (List Nat × List (List Nat)) → Bool × zip_t × SinkSt
  | [] => (true, z, s)
  | (d, chunks) :: rest =>
    match zip_entry_update z s d crcUpd (chunks.map some) with
    | (false, z', s') => (false, z', s')
    | (true, z', s') => runUpds crcUpd z' s' rest

/-- Runs one complete OpenEntry / UpdateEntry* / CloseEntry cycle
(with `deflateReset` succeeding). -/
def runCycle (crcUpd : Nat → List Nat → Nat) (z : zip_t) (s : SinkSt)
    (c : Cycle) : Bool × zip_t × SinkSt :=
  match zip_entry_add z s c.name c.dt true with
  | (false, z', s') => (false, z', s')
  | (true, z1, s1) =>
    match runUpds crcUpd z1 s1 c.upds with
    | (false, z', s') => (false, z', s')
    | (true, z2, s2) => zip_entry_end z2 s2 (c.closeChunks.map some)

/-- Runs a sequence of complete cycles, stopping at the first failure. -/
def runCycles (crcUpd : Nat → List Nat → Nat) (z : zip_t) (s : SinkSt) :
    List Cycle → Bool × zip_t × SinkSt
  | [] => (true, z, s)
  | c :: cs =>
    match runCycle crcUpd z s c with
    | (false, z', s') => (false, z', s')
    | (true, z', s') => runCycles crcUpd z' s' cs

/-! ## Lemmas -/

/-! ### Byte lists -/

theorem le16_length (n : Nat) : (le16 n).length = 2 := rfl

theorem le32_length (n : Nat) : (le32 n).length = 4 := rfl

/-! ### `updateLast` -/

theorem updateLast_nil {α : Type} (f : α → α) : updateLast f [] = [] := rfl

theorem updateLast_concat {α : Type} (f : α → α) (l : List α) (x : α) :
    updateLast f (l ++ [x]) = l ++ [f x] := by
  induction l with
  | nil => rfl
  | cons a as ih =>
    cases as with
    | nil => rfl
    | cons b bs =>
      simp only [List.cons_append] at ih ⊢
      rw [updateLast, ih]
      simp

theorem updateLast_length {α : Type} (f : α → α) (l : List α) :
    (updateLast f l).length = l.length := by
  induction l with
  | nil => rfl
  | cons a as ih =>
    cases as with
    | nil => rfl
    | cons b bs => simpa [updateLast] using ih

theorem updateLast_dropLast {α : Type} (f : α → α) (l : List α) :
    (updateLast f l).dropLast = l.dropLast := by
  induction l using List.reverseRecOn with
  | nil => rfl
  | append_singleton l' x _ =>
    rw [updateLast_concat]
    simp

theorem updateLast_getLastD {α : Type} (f : α → α) (l : List α) (d : α)
    (h : l ≠ []) : (updateLast f l).getLastD d = f (l.getLastD d) := by
  induction l using List.reverseRecOn with
  | nil => exact absurd rfl h
  | append_singleton l' x _ =>
    rw [updateLast_concat]
    simp

/-! ### Growable array -/

theorem capInv_init {α : Type} : CapInv (varrayInit α 1) := by
  refine ⟨rfl, 0, rfl, by simp [varrayInit], fun h => rfl, fun h => by cases h⟩

theorem resizeIfReq_len {α : Type} (va : varray α) : (resizeIfReq va).len = va.len := by
  unfold resizeIfReq vaDoubleSize varrayResize
  split <;> rfl

theorem resizeIfReq_data {α : Type} (va : varray α) : (resizeIfReq va).data = va.data := by
  unfold resizeIfReq vaDoubleSize varrayResize
  split <;> rfl

theorem varrayPush_len {α : Type} (va : varray α) (x : α) :
    (varrayPush va x).len = va.len + 1 := by
  unfold varrayPush
  simp [resizeIfReq_len]

theorem varrayPush_data {α : Type} (va : varray α) (x : α) :
    (varrayPush va x).data = va.data ++ [x] := by
  unfold varrayPush
  simp [resizeIfReq_data]

/-- A single push doubles the capacity at most once (to `2 * len`), and only
when the array is full. -/
theorem varrayPush_capacity {α : Type} (va : varray α) (x : α) :
    (varrayPush va x).capacity =
      if va.capacity ≤ va.len then va.len * 2 else va.capacity := by
  unfold varrayPush resizeIfReq vaDoubleSize varrayResize
  split <;> rfl

theorem capInv_push {α : Type} (va : varray α) (x : α) (h : CapInv va) :
    CapInv (varrayPush va x) := by
  obtain ⟨hlen, j, hcap, hle, h0, h1⟩ := h
  by_cases hfull : va.capacity ≤ va.len
  · -- the array is full: `len = 2 ^ j` and the capacity doubles to `2 ^ (j + 1)`
    have hlenj : va.len = 2 ^ j := le_antisymm hle (hcap ▸ hfull)
    have h1le : 1 ≤ 2 ^ j := Nat.one_le_two_pow
    refine ⟨?_, j + 1, ?_, ?_, ?_, ?_⟩
    · simp [varrayPush_data, varrayPush_len, hlen]
    · rw [varrayPush_capacity, if_pos hfull, hlenj, pow_succ]
    · rw [varrayPush_len, hlenj, pow_succ]
      omega
    · rw [varrayPush_len]
      omega
    · intro _
      rw [varrayPush_len, hlenj, pow_succ]
      omega
  · -- room left: the capacity is unchanged
    have hlt : va.len < 2 ^ j := by
      rcases Nat.lt_or_ge va.len (2 ^ j) with h' | h'
      · exact h'
      · exact absurd (hcap ▸ h') hfull
    have h1le : 1 ≤ 2 ^ j := Nat.one_le_two_pow
    refine ⟨?_, j, ?_, ?_, ?_, ?_⟩
    · simp [varrayPush_data, varrayPush_len, hlen]
    · rw [varrayPush_capacity, if_neg hfull, hcap]
    · rw [varrayPush_len]
      omega
    · rw [varrayPush_len]
      omega
    · intro _
      rw [varrayPush_len]
      rcases Nat.eq_zero_or_pos va.len with h' | h'
      · have := h0 h'
        subst this
        omega
      · have := h1 h'
        omega

theorem capInv_pushList {α : Type} (xs : List α) (va : varray α) (h : CapInv va) :
    CapInv (varrayPushList va xs) := by
  induction xs generalizing va with
  | nil => exact h
  | cons x xs ih => exact ih _ (capInv_push va x h)

theorem pushList_data {α : Type} (xs : List α) (va : varray α) :
    (varrayPushList va xs).data = va.data ++ xs := by
  induction xs generalizing va with
  | nil => simp [varrayPushList]
  | cons x xs ih =>
    have : varrayPushList va (x :: xs) = varrayPushList (varrayPush va x) xs := rfl
    rw [this, ih, varrayPush_data]
    simp

theorem pushList_len {α : Type} (xs : List α) (va : varray α) :
    (varrayPushList va xs).len = va.len + xs.length := by
  induction xs generalizing va with
  | nil => simp [varrayPushList]
  | cons x xs ih =>
    have : varrayPushList va (x :: xs) = varrayPushList (varrayPush va x) xs := rfl
    rw [this, ih, varrayPush_len]
    simp
    omega

/-- The capacity of a var array satisfying the reachability invariant is
pinned to `2 ^ (k + 1)` once the length is `2 ^ k + 1`. -/
theorem capInv_capacity_eq {α : Type} (va : varray α) (k : Nat)
    (h : CapInv va) (hlen : va.len = 2 ^ k + 1) :
    va.capacity = 2 ^ (k + 1) := by
  obtain ⟨_, j, hcap, hle, _, h1⟩ := h
  rw [hlen] at hle h1
  have hup : 2 ^ j < 2 * (2 ^ k + 1) := h1 (Nat.le_add_left 1 _)
  have hkj : k < j := by
    have : (2 : Nat) ^ k < 2 ^ j := by omega
    exact (Nat.pow_lt_pow_iff_right (by norm_num)).mp this
  have hjk : j < k + 2 := by
    by_contra hge
    have h2 : (2 : Nat) ^ (k + 2) ≤ 2 ^ j :=
      Nat.pow_le_pow_right (by norm_num) (by omega)
    have h3 : (2 : Nat) ^ (k + 2) = 2 * 2 ^ k + 2 * 2 ^ k := by ring
    have h4 : (1 : Nat) ≤ 2 ^ k := Nat.one_le_two_pow
    omega
  have : j = k + 1 := by omega
  rw [hcap, this]

/-! ### Sink and `WRITE_LE` chains -/

theorem sinkWrite_allOk (s : SinkSt) (d : List Nat) (h : AllOk s) :
    sinkWrite s d =
      (true, ⟨s.ok, s.idx + 1, s.output ++ d, s.passed + d.length⟩) := by
  simp [sinkWrite, h s.idx]

/-- A failed sink call changes neither the output trace nor the passed-byte
count (the bytes of a rejected buffer are not recorded). -/
theorem sinkWrite_ok (s : SinkSt) (d : List Nat) :
    (sinkWrite s d).2.ok = s.ok := by
  unfold sinkWrite
  split <;> rfl

theorem writeFields_allOk (fs : List (List Nat)) (s : SinkSt) (h : AllOk s) :
    writeFields s fs =
      (fs.flatten.length, true,
        ⟨s.ok, s.idx + fs.length, s.output ++ fs.flatten,
         s.passed + fs.flatten.length⟩) := by
  induction fs generalizing s with
  | nil => simp [writeFields]
  | cons f rest ih =>
    rw [writeFields, sinkWrite_allOk s f h]
    have h' : AllOk (⟨s.ok, s.idx + 1, s.output ++ f, s.passed + f.length⟩ : SinkSt) := h
    dsimp only
    rw [ih _ h']
    simp only [List.flatten_cons, List.length_append, List.length_cons,
      Prod.mk.injEq, SinkSt.mk.injEq, List.append_assoc, true_and]
    omega

/-- On a fully successful `WRITE_LE` chain, the returned byte count equals
the growth of the sink's passed-byte count; the sink oracle is unchanged
in every case. -/
theorem writeFields_acc (fs : List (List Nat)) (s : SinkSt) :
    (writeFields s fs).2.2.ok = s.ok ∧
      ((writeFields s fs).2.1 = true →
        (writeFields s fs).2.2.passed = s.passed + (writeFields s fs).1) := by
  induction fs generalizing s with
  | nil => exact ⟨rfl, fun _ => rfl⟩
  | cons f rest ih =>
    rw [writeFields]
    cases hsw : sinkWrite s f with
    | mk r s' =>
      have hok : s'.ok = s.ok := by
        have := sinkWrite_ok s f
        rw [hsw] at this
        exact this
      cases r with
      | false => exact ⟨hok, by simp⟩
      | true =>
        have hpass : s'.passed = s.passed + f.length := by
          unfold sinkWrite at hsw
          by_cases hb : s.ok s.idx = true
          · rw [if_pos hb] at hsw
            injection hsw with h1 h2
            rw [← h2]
          · rw [if_neg hb] at hsw
            injection hsw with h1 h2
            cases h1
        dsimp only
        refine ⟨by rw [(ih s').1, hok], fun hsucc => ?_⟩
        have := (ih s').2 hsucc
        omega

/-! ### MS-DOS bit packing -/

/-- Bitwise or of values occupying disjoint bit ranges is addition. -/
theorem lor_shiftLeft_eq_add (a b n : Nat) (h : a < 2 ^ n) :
    a ||| (b <<< n) = 2 ^ n * b + a := by
  apply Nat.eq_of_testBit_eq
  intro i
  rw [Nat.testBit_lor, Nat.testBit_shiftLeft, Nat.testBit_mul_pow_two_add b h i]
  by_cases hin : i < n
  · have : ¬ (i ≥ n) := by omega
    simp [hin, this]
  · have hf : a.testBit i = false :=
      Nat.testBit_lt_two_pow
        (lt_of_lt_of_le h (Nat.pow_le_pow_right (by norm_num) (by omega)))
    have : i ≥ n := by omega
    simp [hin, hf, this]

theorem and_mask31 (x : Nat) : x &&& 31 = x % 32 := by
  have := Nat.and_pow_two_sub_one_eq_mod x 5
  norm_num at this
  exact this

theorem and_mask63 (x : Nat) : x &&& 63 = x % 64 := by
  have := Nat.and_pow_two_sub_one_eq_mod x 6
  norm_num at this
  exact this

theorem and_mask15 (x : Nat) : x &&& 15 = x % 16 := by
  have := Nat.and_pow_two_sub_one_eq_mod x 4
  norm_num at this
  exact this

theorem and_mask127 (x : Nat) : x &&& 127 = x % 128 := by
  have := Nat.and_pow_two_sub_one_eq_mod x 7
  norm_num at this
  exact this

/-- Closed arithmetic form of `_get_dos_time` for in-range components. -/
theorem getDosTime_eq (dt : zip_datetime) (hh : dt.hours < 32)
    (hm : dt.minutes < 64) (hs : dt.seconds < 64) :
    getDosTime dt = dt.hours * 2 ^ 11 + dt.minutes * 2 ^ 5 + dt.seconds / 2 := by
  unfold getDosTime
  rw [and_mask31, and_mask63, and_mask31]
  rw [Nat.mod_eq_of_lt (by omega), Nat.mod_eq_of_lt (by omega),
    Nat.mod_eq_of_lt (by omega)]
  rw [lor_shiftLeft_eq_add _ _ 5 (by omega)]
  rw [lor_shiftLeft_eq_add _ _ 11 (by norm_num; omega)]
  ring

/-- Closed arithmetic form of `_get_dos_date` for in-range components. -/
theorem getDosDate_eq (dt : zip_datetime) (hd : dt.day < 32)
    (hm : dt.month < 16) (hy1 : 1980 ≤ dt.year) (hy2 : dt.year < 2108) :
    getDosDate dt = (dt.year - 1980) * 2 ^ 9 + dt.month * 2 ^ 5 + dt.day := by
  unfold getDosDate
  have hyr : (dt.year + 2 ^ 32 - 1980) % 2 ^ 32 = dt.year - 1980 := by
    have h32 : (2 : Nat) ^ 32 = 4294967296 := by norm_num
    rw [h32]
    omega
  rw [hyr, and_mask31, and_mask15, and_mask127]
  rw [Nat.mod_eq_of_lt (by omega), Nat.mod_eq_of_lt (by omega),
    Nat.mod_eq_of_lt (by omega)]
  rw [lor_shiftLeft_eq_add _ _ 5 (by omega)]
  rw [lor_shiftLeft_eq_add _ _ 9 (by norm_num; omega)]
  ring

/-! ### Drain loop (`_deflate`) -/

theorem sinkWrite_succ (s : SinkSt) (d : List Nat) (s' : SinkSt)
    (h : sinkWrite s d = (true, s')) :
    s' = ⟨s.ok, s.idx + 1, s.output ++ d, s.passed + d.length⟩ := by
  unfold sinkWrite at h
  by_cases hb : s.ok s.idx = true
  · rw [if_pos hb] at h
    injection h with h1 h2
    exact h2.symm
  · rw [if_neg hb] at h
    injection h with h1 h2
    cases h1

theorem sinkWrite_fail (s : SinkSt) (d : List Nat) (s' : SinkSt)
    (h : sinkWrite s d = (false, s')) :
    s' = { s with idx := s.idx + 1 } := by
  unfold sinkWrite at h
  by_cases hb : s.ok s.idx = true
  · rw [if_pos hb] at h
    injection h with h1 h2
    cases h1
  · rw [if_neg hb] at h
    injection h with h1 h2
    exact h2.symm

/-- A field read through `getLastD` is unchanged by an `updateLast` whose
rewriting function preserves that field. -/
theorem getLastD_field_preserved {α β : Type} (f : α → α) (g : α → β)
    (l : List α) (d : α) (h : ∀ e, g (f e) = g e) :
    g ((updateLast f l).getLastD d) = g (l.getLastD d) := by
  cases l with
  | nil => rfl
  | cons a as =>
    rw [updateLast_getLastD f (a :: as) d (by simp)]
    exact h _

/-- Frame facts about the `_deflate` drain loop, for an arbitrary sink
oracle and arbitrary drain iterations: the loop never touches
`entry_opened`, `central_dir_offset`, the number of entries, the entries
other than the last, or any field of the last entry except
`size_compressed`; the sink oracle is unchanged; and `bytes_written` grows
by exactly the bytes of the successfully sunk chunks. -/
theorem deflateDrain_frame (iters : List (Option (List Nat)))
    (z : zip_t) (s : SinkSt) :
    (deflateDrain z s iters).2.1.entry_opened = z.entry_opened ∧
    (deflateDrain z s iters).2.1.central_dir_offset = z.central_dir_offset ∧
    (deflateDrain z s iters).2.1.entries.length = z.entries.length ∧
    (deflateDrain z s iters).2.1.entries.dropLast = z.entries.dropLast ∧
    (lastEntry (deflateDrain z s iters).2.1).offset = (lastEntry z).offset ∧
    (lastEntry (deflateDrain z s iters).2.1).name = (lastEntry z).name ∧
    (lastEntry (deflateDrain z s iters).2.1).crc = (lastEntry z).crc ∧
    (lastEntry (deflateDrain z s iters).2.1).size = (lastEntry z).size ∧
    (deflateDrain z s iters).2.2.ok = s.ok ∧
    (deflateDrain z s iters).2.1.bytes_written + s.passed =
      z.bytes_written + (deflateDrain z s iters).2.2.passed := by
  induction iters generalizing z s with
  | nil => exact ⟨rfl, rfl, rfl, rfl, rfl, rfl, rfl, rfl, rfl, rfl⟩
  | cons it rest ih =>
    cases it with
    | none => exact ⟨rfl, rfl, rfl, rfl, rfl, rfl, rfl, rfl, rfl, rfl⟩
    | some chunk =>
      rw [deflateDrain]
      cases hsw : sinkWrite s chunk with
      | mk r s1 =>
        cases r with
        | false =>
          have hs1 := sinkWrite_fail s chunk s1 hsw
          subst hs1
          exact ⟨rfl, rfl, rfl, rfl, rfl, rfl, rfl, rfl, rfl, rfl⟩
        | true =>
          have hs1 := sinkWrite_succ s chunk s1 hsw
          subst hs1
          dsimp only
          set f : zip_entry_t → zip_entry_t := fun e =>
            { e with size_compressed := (e.size_compressed + chunk.length) % 2 ^ 32 }
            with hf
          set z' : zip_t :=
            { z with entries := updateLast f z.entries,
                     bytes_written := z.bytes_written + chunk.length } with hz'
          obtain ⟨i1, i2, i3, i4, i5, i6, i7, i8, i9, i10⟩ := ih z' _
          refine ⟨i1, i2, ?_, ?_, ?_, ?_, ?_, ?_, i9, ?_⟩
          · rw [i3, hz']
            exact updateLast_length f z.entries
          · rw [i4, hz']
            exact updateLast_dropLast f z.entries
          · rw [i5]
            exact getLastD_field_preserved f (fun e => e.offset) z.entries
              default (fun e => rfl)
          · rw [i6]
            exact getLastD_field_preserved f (fun e => e.name) z.entries
              default (fun e => rfl)
          · rw [i7]
            exact getLastD_field_preserved f (fun e => e.crc) z.entries
              default (fun e => rfl)
          · rw [i8]
            exact getLastD_field_preserved f (fun e => e.size) z.entries
              default (fun e => rfl)
          · have i10' :
                (deflateDrain z'
                    ⟨s.ok, s.idx + 1, s.output ++ chunk,
                     s.passed + chunk.length⟩ rest).2.1.bytes_written +
                  (s.passed + chunk.length) =
                (z.bytes_written + chunk.length) +
                  (deflateDrain z'
                    ⟨s.ok, s.idx + 1, s.output ++ chunk,
                     s.passed + chunk.length⟩ rest).2.2.passed := i10
            omega

/-- With an all-accepting sink and every `deflate` call succeeding, the
drain loop succeeds and hands exactly the concatenation of the produced
chunks to the sink, one call per chunk. -/
theorem deflateDrain_allOk (chunks : List (List Nat)) (z : zip_t)
    (s : SinkSt) (h : AllOk s) :
    (deflateDrain z s (chunks.map some)).1 = true ∧
    (deflateDrain z s (chunks.map some)).2.2 =
      ⟨s.ok, s.idx + chunks.length, s.output ++ chunks.flatten,
       s.passed + chunks.flatten.length⟩ := by
  induction chunks generalizing z s with
  | nil =>
    refine ⟨rfl, ?_⟩
    show s = _
    simp
  | cons chunk rest ih =>
    simp only [List.map_cons]
    rw [deflateDrain, sinkWrite_allOk s chunk h]
    dsimp only
    set s1 : SinkSt :=
      ⟨s.ok, s.idx + 1, s.output ++ chunk, s.passed + chunk.length⟩ with hs1
    set f : zip_entry_t → zip_entry_t := fun e =>
      { e with size_compressed := (e.size_compressed + chunk.length) % 2 ^ 32 }
      with hfd
    set z' : zip_t :=
      { z with entries := updateLast f z.entries,
               bytes_written := z.bytes_written + chunk.length } with hz'
    obtain ⟨i1, i2⟩ := ih z' s1 h
    refine ⟨i1, ?_⟩
    rw [i2, hs1]
    simp only [SinkSt.mk.injEq, List.flatten_cons, List.length_cons,
      List.length_append, List.append_assoc, true_and, and_true, eq_self_iff_true]
    omega

/-- Frame facts about `_deflate` (size bookkeeping plus drain), for an
arbitrary sink oracle and arbitrary iterations. -/
theorem zipDeflate_frame (z : zip_t) (s : SinkSt) (n : Nat)
    (iters : List (Option (List Nat))) :
    (zipDeflate z s n iters).2.1.entry_opened = z.entry_opened ∧
    (zipDeflate z s n iters).2.1.central_dir_offset = z.central_dir_offset ∧
    (zipDeflate z s n iters).2.1.entries.length = z.entries.length ∧
    (zipDeflate z s n iters).2.1.entries.dropLast = z.entries.dropLast ∧
    (lastEntry (zipDeflate z s n iters).2.1).offset = (lastEntry z).offset ∧
    (lastEntry (zipDeflate z s n iters).2.1).name = (lastEntry z).name ∧
    (lastEntry (zipDeflate z s n iters).2.1).crc = (lastEntry z).crc ∧
    (zipDeflate z s n iters).2.2.ok = s.ok ∧
    (zipDeflate z s n iters).2.1.bytes_written + s.passed =
      z.bytes_written + (zipDeflate z s n iters).2.2.passed := by
  unfold zipDeflate
  set f : zip_entry_t → zip_entry_t := fun e =>
    { e with size := (e.size + n) % 2 ^ 32 } with hfd
  set z1 : zip_t := { z with entries := updateLast f z.entries } with hz1
  obtain ⟨i1, i2, i3, i4, i5, i6, i7, _, i9, i10⟩ := deflateDrain_frame iters z1 s
  refine ⟨i1, i2, ?_, ?_, ?_, ?_, ?_, i9, i10⟩
  · rw [i3, hz1]
    exact updateLast_length f z.entries
  · rw [i4, hz1]
    exact updateLast_dropLast f z.entries
  · rw [i5]
    exact getLastD_field_preserved f (fun e => e.offset) z.entries default
      (fun e => rfl)
  · rw [i6]
    exact getLastD_field_preserved f (fun e => e.name) z.entries default
      (fun e => rfl)
  · rw [i7]
    exact getLastD_field_preserved f (fun e => e.crc) z.entries default
      (fun e => rfl)

/-- The `CUR_ENTRY(z).size += data_len` at the top of `_deflate` is a
`uint32_t` accumulation: the stored value is reduced modulo `2 ^ 32`. -/
theorem zipDeflate_size (z : zip_t) (s : SinkSt) (n : Nat)
    (iters : List (Option (List Nat))) (h : z.entries ≠ []) :
    (lastEntry (zipDeflate z s n iters).2.1).size =
      ((lastEntry z).size + n) % 2 ^ 32 := by
  unfold zipDeflate
  set f : zip_entry_t → zip_entry_t := fun e =>
    { e with size := (e.size + n) % 2 ^ 32 } with hfd
  set z1 : zip_t := { z with entries := updateLast f z.entries } with hz1
  obtain ⟨_, _, _, _, _, _, _, i8, _, _⟩ := deflateDrain_frame iters z1 s
  rw [i8]
  show ((updateLast f z.entries).getLastD default).size = _
  rw [updateLast_getLastD f z.entries default h]
  rfl

/-- With an all-accepting sink, `_deflate` succeeds and hands exactly the
produced chunks to the sink. -/
theorem zipDeflate_allOk (chunks : List (List Nat)) (z : zip_t)
    (s : SinkSt) (n : Nat) (h : AllOk s) :
    (zipDeflate z s n (chunks.map some)).1 = true ∧
    (zipDeflate z s n (chunks.map some)).2.2 =
      ⟨s.ok, s.idx + chunks.length, s.output ++ chunks.flatten,
       s.passed + chunks.flatten.length⟩ := by
  unfold zipDeflate
  exact deflateDrain_allOk chunks _ s h

/-! ### Record sizes -/

theorem lfhFields_length (a t d : Nat) : (lfhFields a t d).length = 11 := rfl

theorem lfhFields_flatten_length (a t d : Nat) :
    (lfhFields a t d).flatten.length = 30 := by
  simp [lfhFields, le16, le32]

theorem cdFields_length (e : zip_entry_t) : (cdFields e).length = 17 := rfl

theorem cdFields_flatten_length (e : zip_entry_t) :
    (cdFields e).flatten.length = 46 := by
  simp [cdFields, le16, le32]

theorem ddFields_flatten_length (e : zip_entry_t) :
    (ddFields e).flatten.length = 16 := by
  simp [ddFields, le32]

theorem eocdFields_length (n c o : Nat) : (eocdFields n c o).length = 8 := rfl

theorem eocdFields_flatten_length (n c o : Nat) :
    (eocdFields n c o).flatten.length = 22 := by
  simp [eocdFields, le16, le32]

theorem truncated_name_length (filename : List Nat) :
    (filename.take (min filename.length ZIP_ENTRY_MAX_NAME_LEN)).length =
      min filename.length ZIP_ENTRY_MAX_NAME_LEN := by
  simp [List.length_take]

theorem addEntry_name_length (z : zip_t) (filename : List Nat)
    (dt : zip_datetime) :
    (addEntry z filename dt).name.length =
      min filename.length ZIP_ENTRY_MAX_NAME_LEN :=
  truncated_name_length filename

theorem addEntry_time (z : zip_t) (filename : List Nat) (dt : zip_datetime) :
    (addEntry z filename dt).time = getDosTime dt := rfl

theorem addEntry_date (z : zip_t) (filename : List Nat) (dt : zip_datetime) :
    (addEntry z filename dt).date = getDosDate dt := rfl

/-- `AllOk` only constrains the oracle, which `sinkWrite` and the record
writers never change. -/
theorem allOk_any (s : SinkSt) (a : Nat) (b : List Nat) (c : Nat)
    (h : AllOk s) : AllOk (⟨s.ok, a, b, c⟩ : SinkSt) := h

/-! ### `zip_entry_add` -/

/-- Closed form of `zip_entry_add` from the `Idle` state with an
all-accepting sink, for either outcome of the final `deflateReset`: the
local header (30 fixed bytes in 11 sink calls, then the truncated name)
is handed to the sink, the new entry record is appended, `entry_opened`
is set, and `bytes_written` grows by the full local-header size.  The
call's return value is exactly the `deflateReset` outcome. -/
theorem zip_entry_add_allOk (z : zip_t) (s : SinkSt) (filename : List Nat)
    (dt : zip_datetime) (resetOk : Bool) (h1 : z.entry_opened = false)
    (h2 : AllOk s) :
    zip_entry_add z s filename dt resetOk =
      (resetOk,
       { entries := z.entries ++ [addEntry z filename dt],
         bytes_written :=
           z.bytes_written + 30 + min filename.length ZIP_ENTRY_MAX_NAME_LEN,
         central_dir_offset := z.central_dir_offset,
         entry_opened := true },
       ⟨s.ok, s.idx + 12,
        s.output ++
          (lfhFields (min filename.length ZIP_ENTRY_MAX_NAME_LEN)
            (getDosTime dt) (getDosDate dt)).flatten ++
          (addEntry z filename dt).name,
        s.passed + 30 + min filename.length ZIP_ENTRY_MAX_NAME_LEN⟩) := by
  unfold zip_entry_add
  rw [if_neg (by rw [h1]; exact Bool.false_ne_true)]
  dsimp only
  rw [writeFields_allOk _ _ h2]
  dsimp only
  rw [sinkWrite_allOk _ _ (allOk_any s _ _ _ h2)]
  dsimp only
  simp only [Prod.mk.injEq, zip_t.mk.injEq, SinkSt.mk.injEq,
    lfhFields_length, lfhFields_flatten_length, addEntry_name_length,
    addEntry_time, addEntry_date,
    List.append_assoc, true_and, and_true, eq_self_iff_true]

/-- Byte accounting of `zip_entry_add` for an arbitrary sink oracle: when
the call reaches its final `return` (all header and name writes accepted),
`bytes_written` grows by exactly the bytes passed to the sink. -/
theorem zip_entry_add_acc (z : zip_t) (s : SinkSt) (filename : List Nat)
    (dt : zip_datetime) (resetOk : Bool)
    (h : (zip_entry_add z s filename dt resetOk).1 = true) :
    (zip_entry_add z s filename dt resetOk).2.1.bytes_written + s.passed =
      z.bytes_written + (zip_entry_add z s filename dt resetOk).2.2.passed := by
  unfold zip_entry_add at h ⊢
  by_cases hop : z.entry_opened = true
  · rw [if_pos hop] at h
    cases h
  · rw [if_neg hop] at h ⊢
    dsimp only at h ⊢
    rcases hw : writeFields s (lfhFields
        (min filename.length ZIP_ENTRY_MAX_NAME_LEN)
        (addEntry z filename dt).time (addEntry z filename dt).date) with
      ⟨bw, rb, s1⟩
    rw [hw] at h
    cases rb with
    | false => cases h
    | true =>
      dsimp only at h ⊢
      have hacc := writeFields_acc (lfhFields
        (min filename.length ZIP_ENTRY_MAX_NAME_LEN)
        (addEntry z filename dt).time (addEntry z filename dt).date) s
      rw [hw] at hacc
      have hp1 : s1.passed = s.passed + bw := hacc.2 rfl
      rcases hsw : sinkWrite s1 (addEntry z filename dt).name with ⟨r2, s2⟩
      rw [hsw] at h
      cases r2 with
      | false => cases h
      | true =>
        dsimp only
        have hs2 := sinkWrite_succ s1 _ s2 hsw
        have hp2 : s2.passed = s1.passed + (addEntry z filename dt).name.length := by
          rw [hs2]
        have hn := addEntry_name_length z filename dt
        omega

/-- Byte accounting of `zip_entry_update` for an arbitrary sink oracle and
arbitrary drain iterations (success or failure): `bytes_written` always
grows by exactly the bytes of the chunks the sink accepted. -/
theorem zip_entry_update_acc (z : zip_t) (s : SinkSt) (data : List Nat)
    (crcUpd : Nat → List Nat → Nat) (iters : List (Option (List Nat))) :
    (zip_entry_update z s data crcUpd iters).2.1.bytes_written + s.passed =
      z.bytes_written + (zip_entry_update z s data crcUpd iters).2.2.passed := by
  unfold zip_entry_update
  by_cases hop : z.entry_opened = true
  · rw [hop]
    simp only [Bool.not_true, Bool.false_eq_true, if_false]
    by_cases hlen : data.length = 0
    · rw [if_pos hlen]
    · rw [if_neg hlen]
      exact (zipDeflate_frame _ _ _ _).2.2.2.2.2.2.2.2
  · have hz : z.entry_opened = false := by
      cases hzo : z.entry_opened
      · rfl
      · exact absurd hzo hop
    rw [hz]
    rfl

/-- Shape of a successful `zip_entry_update` under an all-accepting sink:
the state stays `EntryOpen`, the entry list keeps its length, all entries
but the last are untouched, and the last entry's `offset` and `name` are
untouched. -/
theorem zip_entry_update_shape (z : zip_t) (s : SinkSt) (data : List Nat)
    (crcUpd : Nat → List Nat → Nat) (chunks : List (List Nat))
    (h1 : z.entry_opened = true) (h2 : AllOk s) :
    (zip_entry_update z s data crcUpd (chunks.map some)).1 = true ∧
    (zip_entry_update z s data crcUpd (chunks.map some)).2.1.entry_opened = true ∧
    (zip_entry_update z s data crcUpd (chunks.map some)).2.1.central_dir_offset =
      z.central_dir_offset ∧
    (zip_entry_update z s data crcUpd (chunks.map some)).2.1.entries.length =
      z.entries.length ∧
    (zip_entry_update z s data crcUpd (chunks.map some)).2.1.entries.dropLast =
      z.entries.dropLast ∧
    (lastEntry (zip_entry_update z s data crcUpd (chunks.map some)).2.1).offset =
      (lastEntry z).offset ∧
    (lastEntry (zip_entry_update z s data crcUpd (chunks.map some)).2.1).name =
      (lastEntry z).name ∧
    (zip_entry_update z s data crcUpd (chunks.map some)).2.2.ok = s.ok := by
  unfold zip_entry_update
  have hcond : ¬ ((!z.entry_opened) = true) := by
    rw [h1]
    decide
  rw [if_neg hcond]
  by_cases hlen : data.length = 0
  · rw [if_pos hlen]
    exact ⟨rfl, h1, rfl, rfl, rfl, rfl, rfl, rfl⟩
  · rw [if_neg hlen]
    set f : zip_entry_t → zip_entry_t := fun e =>
      { e with crc := crcUpd e.crc data % 2 ^ 32 } with hfd
    set z1 : zip_t := { z with entries := updateLast f z.entries } with hz1
    obtain ⟨j1, j2, j3, j4, j5, j6, j7, j8, j9⟩ :=
      zipDeflate_frame z1 s data.length (chunks.map some)
    obtain ⟨k1, k2⟩ := zipDeflate_allOk chunks z1 s data.length h2
    refine ⟨k1, ?_, j2, ?_, ?_, ?_, ?_, j8⟩
    · rw [j1]
      exact h1
    · rw [j3, hz1]
      exact updateLast_length f z.entries
    · rw [j4, hz1]
      exact updateLast_dropLast f z.entries
    · rw [j5]
      exact getLastD_field_preserved f (fun e => e.offset) z.entries default
        (fun e => rfl)
    · rw [j6]
      exact getLastD_field_preserved f (fun e => e.name) z.entries default
        (fun e => rfl)

/-- Shape of `zip_entry_end` from the `EntryOpen` state with an
all-accepting sink and a successful compression flush: the flush chunks
and then the 16-byte data descriptor (signature, final crc, compressed
size, uncompressed size) are handed to the sink, and the state returns to
`Idle`. -/
theorem zip_entry_end_allOk (z : zip_t) (s : SinkSt)
    (chunks : List (List Nat)) (h1 : z.entry_opened = true) (h2 : AllOk s) :
    (zip_entry_end z s (chunks.map some)).1 = true ∧
    (zip_entry_end z s (chunks.map some)).2.1.entry_opened = false ∧
    (zip_entry_end z s (chunks.map some)).2.1.central_dir_offset =
      z.central_dir_offset ∧
    (zip_entry_end z s (chunks.map some)).2.1.entries.length =
      z.entries.length ∧
    (zip_entry_end z s (chunks.map some)).2.1.entries.dropLast =
      z.entries.dropLast ∧
    (lastEntry (zip_entry_end z s (chunks.map some)).2.1).offset =
      (lastEntry z).offset ∧
    (lastEntry (zip_entry_end z s (chunks.map some)).2.1).name =
      (lastEntry z).name ∧
    (zip_entry_end z s (chunks.map some)).2.2.ok = s.ok ∧
    (zip_entry_end z s (chunks.map some)).2.2.output =
      s.output ++ chunks.flatten ++
        (ddFields (lastEntry (zip_entry_end z s (chunks.map some)).2.1)).flatten ∧
    (zip_entry_end z s (chunks.map some)).2.1.bytes_written + s.passed =
      z.bytes_written + (zip_entry_end z s (chunks.map some)).2.2.passed := by
  unfold zip_entry_end
  have hcond : ¬ ((!z.entry_opened) = true) := by
    rw [h1]
    decide
  rw [if_neg hcond]
  rcases hzd : zipDeflate z s 0 (chunks.map some) with ⟨rd, z1, s1⟩
  obtain ⟨k1, k2⟩ := zipDeflate_allOk chunks z s 0 h2
  rw [hzd] at k1 k2
  dsimp only at k1 k2
  subst k1
  dsimp only
  obtain ⟨j1, j2, j3, j4, j5, j6, j7, j8, j9⟩ :=
    zipDeflate_frame z s 0 (chunks.map some)
  rw [hzd] at j1 j2 j3 j4 j5 j6 j7 j8 j9
  dsimp only at j1 j2 j3 j4 j5 j6 j7 j8 j9
  have hs1 : AllOk s1 := by
    intro i
    rw [j8]
    exact h2 i
  rw [writeFields_allOk _ _ hs1]
  dsimp only
  have hout1 : s1.output = s.output ++ chunks.flatten := by
    rw [k2]
  have hpass1 : s1.passed = s.passed + chunks.flatten.length := by
    rw [k2]
  refine ⟨rfl, rfl, j2, j3, j4, j5, j6, j8, ?_, ?_⟩
  · rw [hout1]
    rfl
  · rw [ddFields_flatten_length, hpass1]
    omega

/-- `zip_entry_end` never clears `entry_opened` on a failure: the only
assignment `z->entry_opened = false` is behind the flush and the complete
descriptor write. -/
theorem zip_entry_end_fail (z : zip_t) (s : SinkSt)
    (iters : List (Option (List Nat))) (h1 : z.entry_opened = true)
    (h : (zip_entry_end z s iters).1 = false) :
    (zip_entry_end z s iters).2.1.entry_opened = true := by
  unfold zip_entry_end at h ⊢
  have hcond : ¬ ((!z.entry_opened) = true) := by
    rw [h1]
    decide
  rw [if_neg hcond] at h ⊢
  rcases hzd : zipDeflate z s 0 iters with ⟨rd, z1, s1⟩
  have hop : z1.entry_opened = true := by
    have := (zipDeflate_frame z s 0 iters).1
    rw [hzd] at this
    dsimp only at this
    rw [this, h1]
  rw [hzd] at h
  cases rd with
  | false => exact hop
  | true =>
    dsimp only at h ⊢
    rcases hwf : writeFields s1 (ddFields (lastEntry z1)) with ⟨bw, rb, s2⟩
    rw [hwf] at h
    cases rb with
    | false => exact hop
    | true => cases h

/-- Byte accounting of a completed `zip_entry_end` for an arbitrary sink
oracle: `bytes_written` grows by exactly the accepted flush chunks plus the
16 descriptor bytes, which all reached the sink. -/
theorem zip_entry_end_acc (z : zip_t) (s : SinkSt)
    (iters : List (Option (List Nat)))
    (h : (zip_entry_end z s iters).1 = true) :
    (zip_entry_end z s iters).2.1.bytes_written + s.passed =
      z.bytes_written + (zip_entry_end z s iters).2.2.passed := by
  unfold zip_entry_end at h ⊢
  by_cases hop : z.entry_opened = true
  · have hcond : ¬ ((!z.entry_opened) = true) := by
      rw [hop]
      decide
    rw [if_neg hcond] at h ⊢
    rcases hzd : zipDeflate z s 0 iters with ⟨rd, z1, s1⟩
    have hacc1 := (zipDeflate_frame z s 0 iters).2.2.2.2.2.2.2.2
    rw [hzd] at hacc1
    dsimp only at hacc1
    rw [hzd] at h
    cases rd with
    | false => cases h
    | true =>
      dsimp only at h ⊢
      rcases hwf : writeFields s1 (ddFields (lastEntry z1)) with ⟨bw, rb, s2⟩
      rw [hwf] at h
      cases rb with
      | false => cases h
      | true =>
        dsimp only
        have hacc2 := writeFields_acc (ddFields (lastEntry z1)) s1
        rw [hwf] at hacc2
        have hp2 : s2.passed = s1.passed + bw := hacc2.2 rfl
        omega
  · have hz : z.entry_opened = false := by
      cases hzo : z.entry_opened
      · rfl
      · exact absurd hzo hop
    have hcond : (!z.entry_opened) = true := by
      rw [hz]
      decide
    rw [if_pos hcond]

/-! ### Central directory and end of central directory -/

/-- A successful `_write_cd_file_header` hands exactly `cdRecordBytes e`
(46 fixed bytes, then the name) to the sink in 18 calls and adds its size
to `bytes_written`; nothing else changes. -/
theorem writeCdFileHeader_allOk (z : zip_t) (s : SinkSt) (e : zip_entry_t)
    (h : AllOk s) :
    writeCdFileHeader z s e =
      (true,
       { z with bytes_written := z.bytes_written + 46 + e.name.length },
       ⟨s.ok, s.idx + 18, s.output ++ cdRecordBytes e,
        s.passed + 46 + e.name.length⟩) := by
  unfold writeCdFileHeader
  rw [writeFields_allOk _ _ h]
  dsimp only
  rw [sinkWrite_allOk _ _ (allOk_any s _ _ _ h)]
  dsimp only
  simp only [Prod.mk.injEq, zip_t.mk.injEq, SinkSt.mk.injEq,
    cdFields_length, cdFields_flatten_length, cdRecordBytes,
    List.append_assoc, List.length_append, true_and, and_true,
    eq_self_iff_true]

/-- The `zip_end` loop over all entries under an all-accepting sink:
every record is written, in insertion order. -/
theorem writeCdLoop_allOk (es : List zip_entry_t) (z : zip_t) (s : SinkSt)
    (h : AllOk s) :
    writeCdLoop z s es =
      (true,
       { z with bytes_written :=
           z.bytes_written + (es.map fun e => 46 + e.name.length).sum },
       ⟨s.ok, s.idx + 18 * es.length,
        s.output ++ es.flatMap cdRecordBytes,
        s.passed + (es.map fun e => 46 + e.name.length).sum⟩) := by
  induction es generalizing z s with
  | nil =>
    rw [writeCdLoop]
    simp only [List.map_nil, List.sum_nil, List.flatMap_nil, List.length_nil,
      Prod.mk.injEq, true_and]
    constructor
    · show z = _
      simp
    · show s = _
      simp
  | cons e rest ih =>
    rw [writeCdLoop, writeCdFileHeader_allOk z s e h]
    dsimp only
    rw [ih _ _ (allOk_any s _ _ _ h)]
    simp only [Prod.mk.injEq, zip_t.mk.injEq, SinkSt.mk.injEq,
      List.map_cons, List.sum_cons, List.flatMap_cons, List.length_cons,
      List.append_assoc, List.length_append, true_and, and_true,
      eq_self_iff_true]
    refine ⟨by omega, by omega, by omega⟩

/-- A successful `_write_eocd` hands exactly the 22 fixed bytes to the
sink; the returned encoder state is the caller's (in particular
`bytes_written` is not advanced by this record). -/
theorem writeEocd_allOk (z : zip_t) (s : SinkSt) (h : AllOk s) :
    writeEocd z s =
      (true,
       ⟨s.ok, s.idx + 8,
        s.output ++
          (eocdFields z.entries.length
            (z.bytes_written - z.central_dir_offset)
            z.central_dir_offset).flatten,
        s.passed + 22⟩) := by
  unfold writeEocd
  rw [writeFields_allOk _ _ h]
  dsimp only
  simp only [Prod.mk.injEq, SinkSt.mk.injEq, eocdFields_flatten_length,
    eocdFields_length, true_and, and_true, eq_self_iff_true]

/-- When a `WRITE_LE` chain succeeds, its byte counter is the total size
of all fields. -/
theorem writeFields_count_of_true (fs : List (List Nat)) (s : SinkSt)
    (h : (writeFields s fs).2.1 = true) :
    (writeFields s fs).1 = fs.flatten.length := by
  induction fs generalizing s with
  | nil => rfl
  | cons f rest ih =>
    rw [writeFields] at h ⊢
    rcases hsw : sinkWrite s f with ⟨r, s1⟩
    try rw [hsw] at h
    try rw [hsw]
    cases r with
    | false => cases h
    | true =>
      dsimp only at h ⊢
      rw [List.flatten_cons, List.length_append, ih s1 h]

/-- Byte accounting of a successful `_write_cd_file_header` for an
arbitrary sink oracle. -/
theorem writeCdFileHeader_acc (z : zip_t) (s : SinkSt) (e : zip_entry_t)
    (h : (writeCdFileHeader z s e).1 = true) :
    (writeCdFileHeader z s e).2.1.bytes_written + s.passed =
      z.bytes_written + (writeCdFileHeader z s e).2.2.passed := by
  unfold writeCdFileHeader at h ⊢
  rcases hw : writeFields s (cdFields e) with ⟨bw, rb, s1⟩
  try rw [hw] at h
  try rw [hw]
  cases rb with
  | false => cases h
  | true =>
    dsimp only at h ⊢
    have hacc := writeFields_acc (cdFields e) s
    rw [hw] at hacc
    have hp1 : s1.passed = s.passed + bw := hacc.2 rfl
    rcases hsw : sinkWrite s1 e.name with ⟨r2, s2⟩
    try rw [hsw] at h
    try rw [hsw]
    cases r2 with
    | false => cases h
    | true =>
      dsimp only
      have hs2 := sinkWrite_succ s1 _ s2 hsw
      have hp2 : s2.passed = s1.passed + e.name.length := by
        rw [hs2]
      omega

/-- Byte accounting of a successful `zip_end` central-directory loop for
an arbitrary sink oracle. -/
theorem writeCdLoop_acc (es : List zip_entry_t) (z : zip_t) (s : SinkSt)
    (h : (writeCdLoop z s es).1 = true) :
    (writeCdLoop z s es).2.1.bytes_written + s.passed =
      z.bytes_written + (writeCdLoop z s es).2.2.passed := by
  induction es generalizing z s with
  | nil => rfl
  | cons e rest ih =>
    rw [writeCdLoop] at h ⊢
    rcases hh : writeCdFileHeader z s e with ⟨r1, z1, s1⟩
    try rw [hh] at h
    try rw [hh]
    cases r1 with
    | false => cases h
    | true =>
      dsimp only at h ⊢
      have hacc1 := writeCdFileHeader_acc z s e
      rw [hh] at hacc1
      have := ih z1 s1 h
      have h1 := hacc1 rfl
      dsimp only at h1
      omega

/-- Closed form of `zip_end` from the `Idle` state with an all-accepting
sink: one central-directory record per entry in insertion order, then the
end-of-central-directory record, whose 22 bytes reach the sink but are not
added to `bytes_written`. -/
theorem zip_end_allOk (z : zip_t) (s : SinkSt)
    (h1 : z.entry_opened = false) (h2 : AllOk s) :
    zip_end z s =
      (true,
       { entries := z.entries,
         bytes_written :=
           z.bytes_written + (z.entries.map fun e => 46 + e.name.length).sum,
         central_dir_offset := z.bytes_written,
         entry_opened := z.entry_opened },
       ⟨s.ok, s.idx + 18 * z.entries.length + 8,
        s.output ++ z.entries.flatMap cdRecordBytes ++
          (eocdFields z.entries.length
            ((z.entries.map fun e => 46 + e.name.length).sum)
            z.bytes_written).flatten,
        s.passed + (z.entries.map fun e => 46 + e.name.length).sum + 22⟩) := by
  unfold zip_end
  have hcond : ¬ (z.entry_opened = true) := by
    rw [h1]
    exact Bool.false_ne_true
  rw [if_neg hcond]
  dsimp only
  rw [writeCdLoop_allOk _ _ _ h2]
  dsimp only
  rw [writeEocd_allOk _ _ (allOk_any s _ _ _ h2)]
  dsimp only
  simp only [Prod.mk.injEq, zip_t.mk.injEq, SinkSt.mk.injEq, true_and,
    and_true, eq_self_iff_true, List.append_assoc]
  rw [Nat.add_sub_cancel_left]

/-- Byte accounting of a successful `zip_end` for an arbitrary sink
oracle: all central-directory bytes are added to `bytes_written`, but the
22 bytes of the end-of-central-directory record are passed to the sink
without being added. -/
theorem zip_end_acc (z : zip_t) (s : SinkSt)
    (h : (zip_end z s).1 = true) :
    (zip_end z s).2.1.bytes_written + s.passed + 22 =
      z.bytes_written + (zip_end z s).2.2.passed := by
  unfold zip_end at h ⊢
  by_cases hop : z.entry_opened = true
  · rw [if_pos hop] at h
    cases h
  · rw [if_neg hop] at h ⊢
    dsimp only at h ⊢
    rcases hlp : writeCdLoop { z with central_dir_offset := z.bytes_written }
        s z.entries with ⟨rl, z1, s1⟩
    try rw [hlp] at h
    try rw [hlp]
    cases rl with
    | false => cases h
    | true =>
      dsimp only at h ⊢
      have hacc := writeCdLoop_acc z.entries
        { z with central_dir_offset := z.bytes_written } s
      rw [hlp] at hacc
      have hacc1 := hacc rfl
      dsimp only at hacc1
      unfold writeEocd at h ⊢
      rcases hwf : writeFields s1 (eocdFields z1.entries.length
          (z1.bytes_written - z1.central_dir_offset)
          z1.central_dir_offset) with ⟨bw, rb, s2⟩
      try rw [hwf] at h
      try rw [hwf]
      cases rb with
      | false => cases h
      | true =>
        dsimp only
        have hcnt := writeFields_count_of_true (eocdFields z1.entries.length
          (z1.bytes_written - z1.central_dir_offset) z1.central_dir_offset) s1
        rw [hwf] at hcnt
        have hbw : bw = 22 := by
          have := hcnt rfl
          dsimp only at this
          rw [this, eocdFields_flatten_length]
        have hacc2 := writeFields_acc (eocdFields z1.entries.length
          (z1.bytes_written - z1.central_dir_offset) z1.central_dir_offset) s1
        rw [hwf] at hacc2
        have hp2 : s2.passed = s1.passed + bw := hacc2.2 rfl
        omega

/-! ### Complete cycles -/

theorem runUpds_shape (crcUpd : Nat → List Nat → Nat)
    (upds : List (List Nat × List (List Nat))) (z : zip_t) (s : SinkSt)
    (h1 : z.entry_opened = true) (h2 : AllOk s) :
    (runUpds crcUpd z s upds).1 = true ∧
    (runUpds crcUpd z s upds).2.1.entry_opened = true ∧
    (runUpds crcUpd z s upds).2.1.entries.length = z.entries.length ∧
    (runUpds crcUpd z s upds).2.2.ok = s.ok ∧
    (runUpds crcUpd z s upds).2.1.bytes_written + s.passed =
      z.bytes_written + (runUpds crcUpd z s upds).2.2.passed := by
  induction upds generalizing z s with
  | nil => exact ⟨rfl, h1, rfl, rfl, rfl⟩
  | cons u rest ih =>
    rcases u with ⟨d, chunks⟩
    rw [runUpds]
    obtain ⟨u1, u2, u3, u4, u5, u6, u7, u8⟩ :=
      zip_entry_update_shape z s d crcUpd chunks h1 h2
    have uacc := zip_entry_update_acc z s d crcUpd (chunks.map some)
    rcases hu : zip_entry_update z s d crcUpd (chunks.map some) with ⟨ru, z1, s1⟩
    rw [hu] at u1 u2 u4 u8 uacc
    dsimp only at u1 u2 u4 u8 uacc
    subst u1
    dsimp only
    have hs1 : AllOk s1 := by
      intro i
      rw [u8]
      exact h2 i
    obtain ⟨i1, i2, i3, i4, i5⟩ := ih z1 s1 u2 hs1
    refine ⟨i1, i2, ?_, ?_, ?_⟩
    · rw [i3, u4]
    · rw [i4, u8]
    · omega

theorem runCycle_shape (crcUpd : Nat → List Nat → Nat) (c : Cycle)
    (z : zip_t) (s : SinkSt) (h1 : z.entry_opened = false) (h2 : AllOk s) :
    (runCycle crcUpd z s c).1 = true ∧
    (runCycle crcUpd z s c).2.1.entry_opened = false ∧
    (runCycle crcUpd z s c).2.1.entries.length = z.entries.length + 1 ∧
    (runCycle crcUpd z s c).2.2.ok = s.ok ∧
    (runCycle crcUpd z s c).2.1.bytes_written + s.passed =
      z.bytes_written + (runCycle crcUpd z s c).2.2.passed := by
  rw [runCycle, zip_entry_add_allOk z s c.name c.dt true h1 h2]
  dsimp only
  set za : zip_t :=
    { entries := z.entries ++ [addEntry z c.name c.dt],
      bytes_written :=
        z.bytes_written + 30 + min c.name.length ZIP_ENTRY_MAX_NAME_LEN,
      central_dir_offset := z.central_dir_offset,
      entry_opened := true } with hza
  set sa : SinkSt :=
    ⟨s.ok, s.idx + 12,
     s.output ++
       (lfhFields (min c.name.length ZIP_ENTRY_MAX_NAME_LEN)
         (getDosTime c.dt) (getDosDate c.dt)).flatten ++
       (addEntry z c.name c.dt).name,
     s.passed + 30 + min c.name.length ZIP_ENTRY_MAX_NAME_LEN⟩ with hsa
  have hsaok : AllOk sa := h2
  obtain ⟨p1, p2, p3, p4, p5⟩ := runUpds_shape crcUpd c.upds za sa rfl hsaok
  rcases hru : runUpds crcUpd za sa c.upds with ⟨rp, z2, s2⟩
  rw [hru] at p1 p2 p3 p4 p5
  dsimp only at p1 p2 p3 p4 p5
  subst p1
  dsimp only
  have hs2 : AllOk s2 := by
    intro i
    rw [p4]
    exact h2 i
  obtain ⟨q1, q2, q3, q4, q5, q6, q7, q8, q9, q10⟩ :=
    zip_entry_end_allOk z2 s2 c.closeChunks p2 hs2
  refine ⟨q1, q2, ?_, ?_, ?_⟩
  · rw [q4, p3]
    simp
  · rw [q8, p4]
  · omega

theorem runCycles_shape (crcUpd : Nat → List Nat → Nat) (cs : List Cycle)
    (z : zip_t) (s : SinkSt) (h1 : z.entry_opened = false) (h2 : AllOk s) :
    (runCycles crcUpd z s cs).1 = true ∧
    (runCycles crcUpd z s cs).2.1.entry_opened = false ∧
    (runCycles crcUpd z s cs).2.1.entries.length =
      z.entries.length + cs.length ∧
    (runCycles crcUpd z s cs).2.2.ok = s.ok ∧
    (runCycles crcUpd z s cs).2.1.bytes_written + s.passed =
      z.bytes_written + (runCycles crcUpd z s cs).2.2.passed := by
  induction cs generalizing z s with
  | nil => exact ⟨rfl, h1, rfl, rfl, rfl⟩
  | cons c rest ih =>
    rw [runCycles]
    obtain ⟨p1, p2, p3, p4, p5⟩ := runCycle_shape crcUpd c z s h1 h2
    rcases hc : runCycle crcUpd z s c with ⟨rc, z1, s1⟩
    rw [hc] at p1 p2 p3 p4 p5
    dsimp only at p1 p2 p3 p4 p5
    subst p1
    dsimp only
    have hs1 : AllOk s1 := by
      intro i
      rw [p4]
      exact h2 i
    obtain ⟨i1, i2, i3, i4, i5⟩ := ih z1 s1 p2 hs1
    refine ⟨i1, i2, ?_, ?_, ?_⟩
    · rw [i3, p3]
      simp
      omega
    · rw [i4, p4]
    · omega

/-! ### Last supporting lemmas -/

theorem ddFields_flatten (e : zip_entry_t) :
    (ddFields e).flatten =
      le32 0x08074b50 ++ le32 e.crc ++ le32 e.size_compressed ++ le32 e.size := by
  simp [ddFields]

/-- Bytes 42–45 of a central-directory record are the little-endian
`local_header_offset` field. -/
theorem cdRecordBytes_offset (e : zip_entry_t) :
    ((cdRecordBytes e).drop 42).take 4 = le32 e.offset := rfl

/-- Whenever `zip_entry_add` reaches its final `return` (for any sink
oracle), the entry it appended carries `offset = z->bytes_written` as
captured before the local-header write, stored as a `uint32_t`. -/
theorem zip_entry_add_offset (z : zip_t) (s : SinkSt) (filename : List Nat)
    (dt : zip_datetime) (resetOk : Bool)
    (h : (zip_entry_add z s filename dt resetOk).1 = true) :
    (lastEntry (zip_entry_add z s filename dt resetOk).2.1).offset =
      z.bytes_written % 2 ^ 32 ∧
    (zip_entry_add z s filename dt resetOk).2.1.entries =
      z.entries ++ [addEntry z filename dt] := by
  unfold zip_entry_add at h ⊢
  by_cases hop : z.entry_opened = true
  · rw [if_pos hop] at h
    cases h
  · rw [if_neg hop] at h ⊢
    dsimp only at h ⊢
    rcases hw : writeFields s (lfhFields
        (min filename.length ZIP_ENTRY_MAX_NAME_LEN)
        (addEntry z filename dt).time (addEntry z filename dt).date) with
      ⟨bw, rb, s1⟩
    try rw [hw] at h
    try rw [hw]
    cases rb with
    | false => cases h
    | true =>
      dsimp only at h ⊢
      rcases hsw : sinkWrite s1 (addEntry z filename dt).name with ⟨r2, s2⟩
      try rw [hsw] at h
      try rw [hsw]
      cases r2 with
      | false => cases h
      | true =>
        dsimp only
        constructor
        · show ((z.entries ++ [addEntry z filename dt]).getLastD default).offset = _
          rw [List.getLastD_concat]
          rfl
        · rfl

/-! ## Claims -/

/-- C7: pushing `2 ^ k + 1` elements one at a time into a var array
initialized with capacity 1 yields capacity exactly `2 ^ (k + 1)`; each
push doubles the capacity at most once (and only to `2 * len`), and
preserves the existing elements and their order; popping after a push
returns the most recently pushed element and reduces the length from `L`
to `L - 1`. -/
theorem claim_C7 {α : Type} [Inhabited α] (k : Nat) (xs : List α)
    (va : varray α) (x : α) (hlen : xs.length = 2 ^ k + 1) :
    (varrayPushList (varrayInit α 1) xs).capacity = 2 ^ (k + 1) ∧
    (varrayPushList (varrayInit α 1) xs).data = xs ∧
    ((varrayPush va x).capacity = va.capacity ∨
      (varrayPush va x).capacity = 2 * va.len) ∧
    (varrayPush va x).data = va.data ++ [x] ∧
    (varrayPop (varrayPush va x)).1 = x ∧
    (varrayPop (varrayPush va x)).2.len = (varrayPush va x).len - 1 := by
  refine ⟨?_, ?_, ?_, varrayPush_data va x, ?_, rfl⟩
  · have hinv := capInv_pushList xs (varrayInit α 1) capInv_init
    refine capInv_capacity_eq _ k hinv ?_
    rw [pushList_len]
    simpa [varrayInit] using hlen
  · rw [pushList_data]
    rfl
  · rw [varrayPush_capacity]
    by_cases hfull : va.capacity ≤ va.len
    · rw [if_pos hfull]
      right
      omega
    · rw [if_neg hfull]
      left
      rfl
  · show ((varrayPush va x).data.getLastD default) = x
    rw [varrayPush_data, List.getLastD_concat]

theorem claim_C7_witness :
    ([5, 6, 7] : List Nat).length = 2 ^ 1 + 1 ∧
    ((varrayPushList (varrayInit Nat 1) [5, 6, 7]).capacity = 2 ^ (1 + 1) ∧
     (varrayPushList (varrayInit Nat 1) [5, 6, 7]).data = [5, 6, 7] ∧
     ((varrayPush (⟨2, 2, [9, 9]⟩ : varray Nat) 4).capacity =
        (⟨2, 2, [9, 9]⟩ : varray Nat).capacity ∨
      (varrayPush (⟨2, 2, [9, 9]⟩ : varray Nat) 4).capacity =
        2 * (⟨2, 2, [9, 9]⟩ : varray Nat).len) ∧
     (varrayPush (⟨2, 2, [9, 9]⟩ : varray Nat) 4).data =
       (⟨2, 2, [9, 9]⟩ : varray Nat).data ++ [4] ∧
     (varrayPop (varrayPush (⟨2, 2, [9, 9]⟩ : varray Nat) 4)).1 = 4 ∧
     (varrayPop (varrayPush (⟨2, 2, [9, 9]⟩ : varray Nat) 4)).2.len =
       (varrayPush (⟨2, 2, [9, 9]⟩ : varray Nat) 4).len - 1) :=
  ⟨by decide, claim_C7 1 [5, 6, 7] ⟨2, 2, [9, 9]⟩ 4 (by decide)⟩

/-- C8: the packed 16-bit date carries `year - 1980` in bits 9–15, the
month in bits 5–8 and the day in bits 0–4; the packed 16-bit time carries
the hours in bits 11–15, the minutes in bits 5–10 and `seconds / 2` in
bits 0–4 (2-second resolution), for every datetime whose components lie in
the ranges the fields can represent. -/
theorem claim_C8 (dt : zip_datetime) (hd : dt.day < 32) (hmo : dt.month < 16)
    (hy1 : 1980 ≤ dt.year) (hy2 : dt.year < 2108) (hh : dt.hours < 32)
    (hmi : dt.minutes < 64) (hs : dt.seconds < 64) :
    getDosDate dt / 2 ^ 9 = dt.year - 1980 ∧
    getDosDate dt / 2 ^ 5 % 2 ^ 4 = dt.month ∧
    getDosDate dt % 2 ^ 5 = dt.day ∧
    getDosTime dt / 2 ^ 11 = dt.hours ∧
    getDosTime dt / 2 ^ 5 % 2 ^ 6 = dt.minutes ∧
    getDosTime dt % 2 ^ 5 = dt.seconds / 2 := by
  rw [getDosDate_eq dt hd hmo hy1 hy2, getDosTime_eq dt hh hmi hs]
  norm_num
  omega

theorem claim_C8_witness :
    ((⟨2024, 1, 15, 10, 30, 0⟩ : zip_datetime).day < 32 ∧
     (⟨2024, 1, 15, 10, 30, 0⟩ : zip_datetime).month < 16 ∧
     1980 ≤ (⟨2024, 1, 15, 10, 30, 0⟩ : zip_datetime).year ∧
     (⟨2024, 1, 15, 10, 30, 0⟩ : zip_datetime).year < 2108 ∧
     (⟨2024, 1, 15, 10, 30, 0⟩ : zip_datetime).hours < 32 ∧
     (⟨2024, 1, 15, 10, 30, 0⟩ : zip_datetime).minutes < 64 ∧
     (⟨2024, 1, 15, 10, 30, 0⟩ : zip_datetime).seconds < 64) ∧
    (getDosDate ⟨2024, 1, 15, 10, 30, 0⟩ / 2 ^ 9 = 2024 - 1980 ∧
     getDosDate ⟨2024, 1, 15, 10, 30, 0⟩ / 2 ^ 5 % 2 ^ 4 = 1 ∧
     getDosDate ⟨2024, 1, 15, 10, 30, 0⟩ % 2 ^ 5 = 15 ∧
     getDosTime ⟨2024, 1, 15, 10, 30, 0⟩ / 2 ^ 11 = 10 ∧
     getDosTime ⟨2024, 1, 15, 10, 30, 0⟩ / 2 ^ 5 % 2 ^ 6 = 30 ∧
     getDosTime ⟨2024, 1, 15, 10, 30, 0⟩ % 2 ^ 5 = 0 / 2) :=
  ⟨by decide,
   claim_C8 ⟨2024, 1, 15, 10, 30, 0⟩ (by decide) (by decide) (by decide)
     (by decide) (by decide) (by decide) (by decide)⟩

/-- C4: sequencing errors are rejected without any state change:
`zip_entry_add` while an entry is open returns failure leaving the encoder
state and the sink untouched (no sink call is made); `zip_entry_update`
with no entry open returns failure changing nothing; `zip_entry_end` with
no entry open returns success as a no-op changing nothing. -/
theorem claim_C4 (z zc : zip_t) (s sc : SinkSt) (filename data : List Nat)
    (dt : zip_datetime) (resetOk : Bool) (crcUpd : Nat → List Nat → Nat)
    (iters iters2 : List (Option (List Nat)))
    (hopen : z.entry_opened = true) (hclosed : zc.entry_opened = false) :
    zip_entry_add z s filename dt resetOk = (false, z, s) ∧
    zip_entry_update zc sc data crcUpd iters = (false, zc, sc) ∧
    zip_entry_end zc sc iters2 = (true, zc, sc) := by
  refine ⟨?_, ?_, ?_⟩
  · unfold zip_entry_add
    rw [if_pos hopen]
  · unfold zip_entry_update
    rw [if_pos (by rw [hclosed]; rfl)]
  · unfold zip_entry_end
    rw [if_pos (by rw [hclosed]; rfl)]

theorem claim_C4_witness :
    ((⟨[], 7, 0, true⟩ : zip_t).entry_opened = true ∧
     (⟨[], 9, 0, false⟩ : zip_t).entry_opened = false) ∧
    (zip_entry_add ⟨[], 7, 0, true⟩ allOkSink [97] ⟨2024, 1, 1, 0, 0, 0⟩ true =
       (false, ⟨[], 7, 0, true⟩, allOkSink) ∧
     zip_entry_update ⟨[], 9, 0, false⟩ allOkSink [1, 2]
         (fun c d => c + d.length) [] =
       (false, ⟨[], 9, 0, false⟩, allOkSink) ∧
     zip_entry_end ⟨[], 9, 0, false⟩ allOkSink [] =
       (true, ⟨[], 9, 0, false⟩, allOkSink)) :=
  ⟨⟨rfl, rfl⟩,
   claim_C4 ⟨[], 7, 0, true⟩ ⟨[], 9, 0, false⟩ allOkSink allOkSink [97] [1, 2]
     ⟨2024, 1, 1, 0, 0, 0⟩ true (fun c d => c + d.length) [] [] rfl rfl⟩

/-- C6: a zero-length `zip_entry_update` with an entry open succeeds and
changes nothing at all — neither the encoder state (entry list, CRC, size
counters, `bytes_written`, `entry_opened`) nor the sink (no bytes are
passed). -/
theorem claim_C6 (z : zip_t) (s : SinkSt) (data : List Nat)
    (crcUpd : Nat → List Nat → Nat) (iters : List (Option (List Nat)))
    (hopen : z.entry_opened = true) (hlen : data.length = 0) :
    zip_entry_update z s data crcUpd iters = (true, z, s) := by
  unfold zip_entry_update
  rw [if_neg (by rw [hopen]; decide), if_pos hlen]

theorem claim_C6_witness :
    ((⟨[⟨0, 3, 4, 5, [97], 0, 0⟩], 42, 0, true⟩ : zip_t).entry_opened = true ∧
     ([] : List Nat).length = 0) ∧
    zip_entry_update ⟨[⟨0, 3, 4, 5, [97], 0, 0⟩], 42, 0, true⟩ allOkSink []
        (fun c d => c + d.length) [some [9]] =
      (true, ⟨[⟨0, 3, 4, 5, [97], 0, 0⟩], 42, 0, true⟩, allOkSink) :=
  ⟨⟨rfl, rfl⟩,
   claim_C6 ⟨[⟨0, 3, 4, 5, [97], 0, 0⟩], 42, 0, true⟩ allOkSink []
     (fun c d => c + d.length) [some [9]] rfl rfl⟩

/-- C5: a name longer than `ZIP_ENTRY_MAX_NAME_LEN = 127` bytes is not an
error: `zip_entry_add` succeeds, stores the name truncated to exactly its
first 127 bytes, and emits exactly those 127 name bytes after the local
header (whose name-length field holds 127). -/
theorem claim_C5 (z : zip_t) (s : SinkSt) (filename : List Nat)
    (dt : zip_datetime) (h1 : z.entry_opened = false) (h2 : AllOk s)
    (h3 : 127 < filename.length) :
    (zip_entry_add z s filename dt true).1 = true ∧
    (lastEntry (zip_entry_add z s filename dt true).2.1).name =
      filename.take 127 ∧
    (lastEntry (zip_entry_add z s filename dt true).2.1).name.length = 127 ∧
    (zip_entry_add z s filename dt true).2.2.output =
      s.output ++
        (lfhFields 127 (getDosTime dt) (getDosDate dt)).flatten ++
        filename.take 127 := by
  have hmin : min filename.length ZIP_ENTRY_MAX_NAME_LEN = 127 := by
    unfold ZIP_ENTRY_MAX_NAME_LEN
    omega
  have hname : (addEntry z filename dt).name = filename.take 127 := by
    unfold addEntry
    rw [hmin]
  rw [zip_entry_add_allOk z s filename dt true h1 h2]
  dsimp only
  refine ⟨rfl, ?_, ?_, ?_⟩
  · show ((z.entries ++ [addEntry z filename dt]).getLastD default).name = _
    rw [List.getLastD_concat, hname]
  · show ((z.entries ++ [addEntry z filename dt]).getLastD default).name.length = _
    rw [List.getLastD_concat, hname, List.length_take]
    omega
  · rw [hmin, hname]

theorem claim_C5_witness :
    ((zipInit.entry_opened = false) ∧ AllOk allOkSink ∧
      127 < (List.replicate 200 97).length) ∧
    ((zip_entry_add zipInit allOkSink (List.replicate 200 97)
        ⟨2024, 1, 15, 10, 30, 0⟩ true).1 = true ∧
     (lastEntry (zip_entry_add zipInit allOkSink (List.replicate 200 97)
        ⟨2024, 1, 15, 10, 30, 0⟩ true).2.1).name =
       (List.replicate 200 97).take 127 ∧
     (lastEntry (zip_entry_add zipInit allOkSink (List.replicate 200 97)
        ⟨2024, 1, 15, 10, 30, 0⟩ true).2.1).name.length = 127 ∧
     (zip_entry_add zipInit allOkSink (List.replicate 200 97)
        ⟨2024, 1, 15, 10, 30, 0⟩ true).2.2.output =
       allOkSink.output ++
         (lfhFields 127 (getDosTime ⟨2024, 1, 15, 10, 30, 0⟩)
           (getDosDate ⟨2024, 1, 15, 10, 30, 0⟩)).flatten ++
         (List.replicate 200 97).take 127) :=
  ⟨⟨rfl, fun _ => rfl, by rw [List.length_replicate]; norm_num⟩,
   claim_C5 zipInit allOkSink (List.replicate 200 97) ⟨2024, 1, 15, 10, 30, 0⟩
     rfl (fun _ => rfl) (by rw [List.length_replicate]; norm_num)⟩

/-- C10: a failure return from `zip_entry_add` does not always leave the
encoder unchanged: when every header-field and name write succeeds but the
final `deflateReset` fails, the call returns `false` even though the new
entry record has been appended, `entry_opened` is already `true`, and
`bytes_written` has grown by the full local-header size. -/
theorem claim_C10 (z : zip_t) (s : SinkSt) (filename : List Nat)
    (dt : zip_datetime) (h1 : z.entry_opened = false) (h2 : AllOk s) :
    (zip_entry_add z s filename dt false).1 = false ∧
    (zip_entry_add z s filename dt false).2.1.entry_opened = true ∧
    (zip_entry_add z s filename dt false).2.1.entries =
      z.entries ++ [addEntry z filename dt] ∧
    (zip_entry_add z s filename dt false).2.1.bytes_written =
      z.bytes_written + 30 + min filename.length ZIP_ENTRY_MAX_NAME_LEN := by
  rw [zip_entry_add_allOk z s filename dt false h1 h2]
  exact ⟨rfl, rfl, rfl, rfl⟩

theorem claim_C10_witness :
    ((zipInit.entry_opened = false) ∧ AllOk allOkSink) ∧
    ((zip_entry_add zipInit allOkSink [97, 98] ⟨2024, 1, 1, 0, 0, 0⟩ false).1 =
       false ∧
     (zip_entry_add zipInit allOkSink [97, 98]
        ⟨2024, 1, 1, 0, 0, 0⟩ false).2.1.entry_opened = true ∧
     (zip_entry_add zipInit allOkSink [97, 98]
        ⟨2024, 1, 1, 0, 0, 0⟩ false).2.1.entries =
       zipInit.entries ++ [addEntry zipInit [97, 98] ⟨2024, 1, 1, 0, 0, 0⟩] ∧
     (zip_entry_add zipInit allOkSink [97, 98]
        ⟨2024, 1, 1, 0, 0, 0⟩ false).2.1.bytes_written =
       zipInit.bytes_written + 30 +
         min ([97, 98] : List Nat).length ZIP_ENTRY_MAX_NAME_LEN) :=
  ⟨⟨rfl, fun _ => rfl⟩,
   claim_C10 zipInit allOkSink [97, 98] ⟨2024, 1, 1, 0, 0, 0⟩ rfl
     (fun _ => rfl)⟩

/-- C9 (implicit): per-entry metadata is stored in `uint32_t` fields and
the end-of-central-directory entry counts in `uint16_t` fields, so
overflowing values are silently reduced modulo `2 ^ 32` (respectively
`2 ^ 16`) with no error and no ZIP64 record: the recorded `offset` is
`bytes_written % 2 ^ 32`; the EOCD record is written successfully with
both count fields holding `num_entries % 2 ^ 16` (bytes 8–11) and nothing
beyond its 22 bytes; and the uncompressed-size accumulator in `_deflate`
wraps modulo `2 ^ 32`. -/
theorem claim_C9 (z z2 z3 : zip_t) (s s2 s3 : SinkSt) (filename : List Nat)
    (dt : zip_datetime) (n : Nat) (iters : List (Option (List Nat)))
    (h1 : z.entry_opened = false) (h2 : AllOk s) (h3 : AllOk s2)
    (h4 : z3.entries ≠ []) :
    ((zip_entry_add z s filename dt true).1 = true ∧
     (lastEntry (zip_entry_add z s filename dt true).2.1).offset =
       z.bytes_written % 2 ^ 32) ∧
    ((writeEocd z2 s2).1 = true ∧
     (writeEocd z2 s2).2.output =
       s2.output ++
         (eocdFields z2.entries.length
           (z2.bytes_written - z2.central_dir_offset)
           z2.central_dir_offset).flatten ∧
     ((eocdFields z2.entries.length
         (z2.bytes_written - z2.central_dir_offset)
         z2.central_dir_offset).flatten.drop 8).take 4 =
       le16 (z2.entries.length % 2 ^ 16) ++
         le16 (z2.entries.length % 2 ^ 16)) ∧
    (lastEntry (zipDeflate z3 s3 n iters).2.1).size =
      ((lastEntry z3).size + n) % 2 ^ 32 := by
  refine ⟨⟨?_, ?_⟩, ⟨?_, ?_, rfl⟩, zipDeflate_size z3 s3 n iters h4⟩
  · rw [zip_entry_add_allOk z s filename dt true h1 h2]
  · rw [zip_entry_add_allOk z s filename dt true h1 h2]
    show ((z.entries ++ [addEntry z filename dt]).getLastD default).offset = _
    rw [List.getLastD_concat]
    rfl
  · rw [writeEocd_allOk z2 s2 h3]
  · rw [writeEocd_allOk z2 s2 h3]

theorem claim_C9_witness :
    ((zipInit.entry_opened = false) ∧ AllOk allOkSink ∧ AllOk allOkSink ∧
      ([(⟨0, 0, 2 ^ 32 - 1, 0, [], 0, 0⟩ : zip_entry_t)] : List zip_entry_t) ≠ []) ∧
    (((zip_entry_add ⟨[], 2 ^ 32 + 5, 0, false⟩ allOkSink [97]
        ⟨2024, 1, 1, 0, 0, 0⟩ true).1 = true ∧
      (lastEntry (zip_entry_add ⟨[], 2 ^ 32 + 5, 0, false⟩ allOkSink [97]
        ⟨2024, 1, 1, 0, 0, 0⟩ true).2.1).offset = (2 ^ 32 + 5) % 2 ^ 32) ∧
     ((writeEocd ⟨List.replicate 3 default, 100, 40, false⟩
         allOkSink).1 = true ∧
      (writeEocd ⟨List.replicate 3 default, 100, 40, false⟩
         allOkSink).2.output =
        allOkSink.output ++
          (eocdFields (List.replicate 3
              (default : zip_entry_t)).length (100 - 40) 40).flatten ∧
      ((eocdFields (List.replicate 3
          (default : zip_entry_t)).length (100 - 40) 40).flatten.drop 8).take 4 =
        le16 ((List.replicate 3
            (default : zip_entry_t)).length % 2 ^ 16) ++
          le16 ((List.replicate 3
            (default : zip_entry_t)).length % 2 ^ 16)) ∧
     (lastEntry (zipDeflate ⟨[⟨0, 0, 2 ^ 32 - 1, 0, [], 0, 0⟩], 0, 0, true⟩
         allOkSink 10 []).2.1).size =
       ((lastEntry (⟨[⟨0, 0, 2 ^ 32 - 1, 0, [], 0, 0⟩], 0, 0, true⟩ : zip_t)).size
           + 10) % 2 ^ 32) :=
  ⟨⟨rfl, fun _ => rfl, fun _ => rfl, List.cons_ne_nil _ _⟩,
   claim_C9 ⟨[], 2 ^ 32 + 5, 0, false⟩
     ⟨List.replicate 3 default, 100, 40, false⟩
     ⟨[⟨0, 0, 2 ^ 32 - 1, 0, [], 0, 0⟩], 0, 0, true⟩
     allOkSink allOkSink allOkSink [97] ⟨2024, 1, 1, 0, 0, 0⟩ 10 []
     rfl (fun _ => rfl) (fun _ => rfl) (List.cons_ne_nil _ _)⟩

/-- C3: with an entry open and all sink writes succeeding, `zip_entry_end`
flushes the compressor and writes the trailing data descriptor — the
little-endian signature `0x08074b50` followed by the entry's final CRC-32,
compressed size and uncompressed size — and moves the encoder to `Idle`;
if the flush or any descriptor field write fails, it returns failure and
`entry_opened` remains `true`. -/
theorem claim_C3 (z : zip_t) (s : SinkSt) (chunks : List (List Nat))
    (iters : List (Option (List Nat))) (h1 : z.entry_opened = true)
    (h2 : AllOk s) :
    ((zip_entry_end z s (chunks.map some)).1 = true ∧
     (zip_entry_end z s (chunks.map some)).2.1.entry_opened = false ∧
     (zip_entry_end z s (chunks.map some)).2.2.output =
       s.output ++ chunks.flatten ++ le32 0x08074b50 ++
         le32 (lastEntry (zip_entry_end z s (chunks.map some)).2.1).crc ++
         le32 (lastEntry (zip_entry_end z s (chunks.map some)).2.1).size_compressed ++
         le32 (lastEntry (zip_entry_end z s (chunks.map some)).2.1).size) ∧
    ((zip_entry_end z s iters).1 = false →
      (zip_entry_end z s iters).2.1.entry_opened = true) := by
  obtain ⟨q1, q2, _, _, _, _, _, _, q9, _⟩ :=
    zip_entry_end_allOk z s chunks h1 h2
  refine ⟨⟨q1, q2, ?_⟩, zip_entry_end_fail z s iters h1⟩
  rw [q9, ddFields_flatten]
  simp [List.append_assoc]

theorem claim_C3_witness :
    ((⟨[⟨0, 7, 8, 9, [97], 0, 0⟩], 50, 0, true⟩ : zip_t).entry_opened = true ∧
      AllOk allOkSink) ∧
    (((zip_entry_end ⟨[⟨0, 7, 8, 9, [97], 0, 0⟩], 50, 0, true⟩ allOkSink
        ([[1, 2, 3]].map some)).1 = true ∧
      (zip_entry_end ⟨[⟨0, 7, 8, 9, [97], 0, 0⟩], 50, 0, true⟩ allOkSink
        ([[1, 2, 3]].map some)).2.1.entry_opened = false ∧
      (zip_entry_end ⟨[⟨0, 7, 8, 9, [97], 0, 0⟩], 50, 0, true⟩ allOkSink
        ([[1, 2, 3]].map some)).2.2.output =
        allOkSink.output ++ [[1, 2, 3]].flatten ++ le32 0x08074b50 ++
          le32 (lastEntry (zip_entry_end ⟨[⟨0, 7, 8, 9, [97], 0, 0⟩], 50, 0,
            true⟩ allOkSink ([[1, 2, 3]].map some)).2.1).crc ++
          le32 (lastEntry (zip_entry_end ⟨[⟨0, 7, 8, 9, [97], 0, 0⟩], 50, 0,
            true⟩ allOkSink ([[1, 2, 3]].map some)).2.1).size_compressed ++
          le32 (lastEntry (zip_entry_end ⟨[⟨0, 7, 8, 9, [97], 0, 0⟩], 50, 0,
            true⟩ allOkSink ([[1, 2, 3]].map some)).2.1).size) ∧
     ((zip_entry_end ⟨[⟨0, 7, 8, 9, [97], 0, 0⟩], 50, 0, true⟩ allOkSink
        [none]).1 = false →
      (zip_entry_end ⟨[⟨0, 7, 8, 9, [97], 0, 0⟩], 50, 0, true⟩ allOkSink
        [none]).2.1.entry_opened = true)) :=
  ⟨⟨rfl, fun _ => rfl⟩,
   claim_C3 ⟨[⟨0, 7, 8, 9, [97], 0, 0⟩], 50, 0, true⟩ allOkSink [[1, 2, 3]]
     [none] rfl (fun _ => rfl)⟩

/-- C2: for every sequence of N complete OpenEntry/UpdateEntry*/CloseEntry
cycles run from a fresh encoder with all sink writes succeeding, the run
succeeds, `zip_get_num_entries` returns N, and `zip_end` succeeds and
emits exactly N central-directory records — one per entry, in insertion
order — followed by the end-of-central-directory record reporting N
entries; bytes 42–45 of each central-directory record are the little-endian
`local_header_offset` equal to that entry's recorded `offset`, and the
recorded `offset` of an entry is the `bytes_written` value captured when
its local-header write began. -/
theorem claim_C2 (crcUpd : Nat → List Nat → Nat) (cs : List Cycle)
    (z : zip_t) (s : SinkSt) (filename : List Nat) (dt : zip_datetime)
    (resetOk : Bool) :
    (runCycles crcUpd zipInit allOkSink cs).1 = true ∧
    zip_get_num_entries (runCycles crcUpd zipInit allOkSink cs).2.1 =
      cs.length ∧
    (zip_end (runCycles crcUpd zipInit allOkSink cs).2.1
      (runCycles crcUpd zipInit allOkSink cs).2.2).1 = true ∧
    (zip_end (runCycles crcUpd zipInit allOkSink cs).2.1
      (runCycles crcUpd zipInit allOkSink cs).2.2).2.2.output =
      (runCycles crcUpd zipInit allOkSink cs).2.2.output ++
        (runCycles crcUpd zipInit allOkSink cs).2.1.entries.flatMap
          cdRecordBytes ++
        (eocdFields cs.length
          (((runCycles crcUpd zipInit allOkSink cs).2.1.entries.map
            fun e => 46 + e.name.length).sum)
          (runCycles crcUpd zipInit allOkSink cs).2.1.bytes_written).flatten ∧
    (∀ e ∈ (runCycles crcUpd zipInit allOkSink cs).2.1.entries,
      ((cdRecordBytes e).drop 42).take 4 = le32 e.offset) ∧
    ((zip_entry_add z s filename dt resetOk).1 = true →
      (lastEntry (zip_entry_add z s filename dt resetOk).2.1).offset =
        z.bytes_written % 2 ^ 32) := by
  have hAll : AllOk allOkSink := fun _ => rfl
  obtain ⟨p1, p2, p3, p4, p5⟩ :=
    runCycles_shape crcUpd cs zipInit allOkSink rfl hAll
  have hcount : (runCycles crcUpd zipInit allOkSink cs).2.1.entries.length =
      cs.length := by
    rw [p3]
    show 0 + cs.length = cs.length
    omega
  have hAllR : AllOk (runCycles crcUpd zipInit allOkSink cs).2.2 := by
    intro i
    rw [p4]
    rfl
  have hend := zip_end_allOk (runCycles crcUpd zipInit allOkSink cs).2.1
    (runCycles crcUpd zipInit allOkSink cs).2.2 p2 hAllR
  refine ⟨p1, hcount, ?_, ?_, fun e _ => cdRecordBytes_offset e,
    fun h => (zip_entry_add_offset z s filename dt resetOk h).1⟩
  · rw [hend]
  · rw [hend, hcount]

theorem claim_C2_witness :
    (runCycles (fun c d => c + d.length) zipInit allOkSink
      [⟨[97], ⟨2024, 1, 15, 10, 30, 0⟩, [([104, 105], [[1, 2]])], [[3]]⟩]).1 =
      true ∧
    zip_get_num_entries (runCycles (fun c d => c + d.length) zipInit allOkSink
      [⟨[97], ⟨2024, 1, 15, 10, 30, 0⟩, [([104, 105], [[1, 2]])], [[3]]⟩]).2.1 =
      ([⟨[97], ⟨2024, 1, 15, 10, 30, 0⟩, [([104, 105], [[1, 2]])],
        [[3]]⟩] : List Cycle).length ∧
    (zip_end (runCycles (fun c d => c + d.length) zipInit allOkSink
        [⟨[97], ⟨2024, 1, 15, 10, 30, 0⟩, [([104, 105], [[1, 2]])], [[3]]⟩]).2.1
      (runCycles (fun c d => c + d.length) zipInit allOkSink
        [⟨[97], ⟨2024, 1, 15, 10, 30, 0⟩, [([104, 105], [[1, 2]])],
          [[3]]⟩]).2.2).1 = true ∧
    (zip_end (runCycles (fun c d => c + d.length) zipInit allOkSink
        [⟨[97], ⟨2024, 1, 15, 10, 30, 0⟩, [([104, 105], [[1, 2]])], [[3]]⟩]).2.1
      (runCycles (fun c d => c + d.length) zipInit allOkSink
        [⟨[97], ⟨2024, 1, 15, 10, 30, 0⟩, [([104, 105], [[1, 2]])],
          [[3]]⟩]).2.2).2.2.output =
      (runCycles (fun c d => c + d.length) zipInit allOkSink
        [⟨[97], ⟨2024, 1, 15, 10, 30, 0⟩, [([104, 105], [[1, 2]])],
          [[3]]⟩]).2.2.output ++
        (runCycles (fun c d => c + d.length) zipInit allOkSink
          [⟨[97], ⟨2024, 1, 15, 10, 30, 0⟩, [([104, 105], [[1, 2]])],
            [[3]]⟩]).2.1.entries.flatMap cdRecordBytes ++
        (eocdFields ([⟨[97], ⟨2024, 1, 15, 10, 30, 0⟩,
            [([104, 105], [[1, 2]])], [[3]]⟩] : List Cycle).length
          (((runCycles (fun c d => c + d.length) zipInit allOkSink
            [⟨[97], ⟨2024, 1, 15, 10, 30, 0⟩, [([104, 105], [[1, 2]])],
              [[3]]⟩]).2.1.entries.map fun e => 46 + e.name.length).sum)
          (runCycles (fun c d => c + d.length) zipInit allOkSink
            [⟨[97], ⟨2024, 1, 15, 10, 30, 0⟩, [([104, 105], [[1, 2]])],
              [[3]]⟩]).2.1.bytes_written).flatten ∧
    (∀ e ∈ (runCycles (fun c d => c + d.length) zipInit allOkSink
        [⟨[97], ⟨2024, 1, 15, 10, 30, 0⟩, [([104, 105], [[1, 2]])],
          [[3]]⟩]).2.1.entries,
      ((cdRecordBytes e).drop 42).take 4 = le32 e.offset) ∧
    ((zip_entry_add zipInit allOkSink [98] ⟨2024, 1, 15, 10, 30, 0⟩ true).1 =
        true →
      (lastEntry (zip_entry_add zipInit allOkSink [98]
        ⟨2024, 1, 15, 10, 30, 0⟩ true).2.1).offset =
        zipInit.bytes_written % 2 ^ 32) :=
  claim_C2 (fun c d => c + d.length)
    [⟨[97], ⟨2024, 1, 15, 10, 30, 0⟩, [([104, 105], [[1, 2]])], [[3]]⟩]
    zipInit allOkSink [98] ⟨2024, 1, 15, 10, 30, 0⟩ true

/-- C1 as stated is false on the code: `_write_eocd` hands its 22-byte
record to the sink but never adds it to `z->bytes_written`, so after a
successful Finalize on a fresh encoder the sink has been passed 22 bytes
(all writes succeeding) while `bytes_written` is still 0. -/
theorem claim_C1_counterexample :
    (zip_end zipInit allOkSink).1 = true ∧
    (zip_end zipInit allOkSink).2.2.passed = 22 ∧
    (zip_end zipInit allOkSink).2.1.bytes_written = 0 := by
  decide

/-- C1 amended: `bytes_written` grows by exactly the bytes passed to the
sink for every completed `zip_entry_add`, every `zip_entry_update` (even a
failed one — the accepted drain chunks are accounted chunk by chunk), and
every successful `zip_entry_end`; a successful `zip_end` passes exactly 22
bytes (the end-of-central-directory record) more to the sink than it adds
to `bytes_written`; consequently, over any sequence of complete cycles from
a fresh encoder with all sink writes succeeding, `bytes_written` equals
the total bytes passed to the sink. -/
theorem claim_C1_amended (z : zip_t) (s : SinkSt) (filename data : List Nat)
    (dt : zip_datetime) (resetOk : Bool) (crcUpd : Nat → List Nat → Nat)
    (iters1 iters2 : List (Option (List Nat))) (cs : List Cycle) :
    ((zip_entry_add z s filename dt resetOk).1 = true →
      (zip_entry_add z s filename dt resetOk).2.1.bytes_written + s.passed =
        z.bytes_written + (zip_entry_add z s filename dt resetOk).2.2.passed) ∧
    ((zip_entry_update z s data crcUpd iters1).2.1.bytes_written + s.passed =
      z.bytes_written + (zip_entry_update z s data crcUpd iters1).2.2.passed) ∧
    ((zip_entry_end z s iters2).1 = true →
      (zip_entry_end z s iters2).2.1.bytes_written + s.passed =
        z.bytes_written + (zip_entry_end z s iters2).2.2.passed) ∧
    ((zip_end z s).1 = true →
      (zip_end z s).2.1.bytes_written + s.passed + 22 =
        z.bytes_written + (zip_end z s).2.2.passed) ∧
    (runCycles crcUpd zipInit allOkSink cs).2.1.bytes_written =
      (runCycles crcUpd zipInit allOkSink cs).2.2.passed := by
  refine ⟨zip_entry_add_acc z s filename dt resetOk,
    zip_entry_update_acc z s data crcUpd iters1,
    zip_entry_end_acc z s iters2, zip_end_acc z s, ?_⟩
  have := (runCycles_shape crcUpd cs zipInit allOkSink rfl fun _ => rfl).2.2.2.2
  have h0 : allOkSink.passed = 0 := rfl
  have h1 : zipInit.bytes_written = 0 := rfl
  omega

theorem claim_C1_amended_witness :
    ((zip_entry_add zipInit allOkSink [97] ⟨2024, 1, 1, 0, 0, 0⟩ true).1 =
        true →
      (zip_entry_add zipInit allOkSink [97]
          ⟨2024, 1, 1, 0, 0, 0⟩ true).2.1.bytes_written + allOkSink.passed =
        zipInit.bytes_written +
          (zip_entry_add zipInit allOkSink [97]
            ⟨2024, 1, 1, 0, 0, 0⟩ true).2.2.passed) ∧
    ((zip_entry_update zipInit allOkSink [5] (fun c d => c + d.length)
        [some [1]]).2.1.bytes_written + allOkSink.passed =
      zipInit.bytes_written +
        (zip_entry_update zipInit allOkSink [5] (fun c d => c + d.length)
          [some [1]]).2.2.passed) ∧
    ((zip_entry_end zipInit allOkSink [some [1]]).1 = true →
      (zip_entry_end zipInit allOkSink
          [some [1]]).2.1.bytes_written + allOkSink.passed =
        zipInit.bytes_written +
          (zip_entry_end zipInit allOkSink [some [1]]).2.2.passed) ∧
    ((zip_end zipInit allOkSink).1 = true →
      (zip_end zipInit allOkSink).2.1.bytes_written + allOkSink.passed + 22 =
        zipInit.bytes_written + (zip_end zipInit allOkSink).2.2.passed) ∧
    (runCycles (fun c d => c + d.length) zipInit allOkSink
      [⟨[97], ⟨2024, 1, 1, 0, 0, 0⟩, [([5, 6], [[1]])],
        [[2]]⟩]).2.1.bytes_written =
      (runCycles (fun c d => c + d.length) zipInit allOkSink
        [⟨[97], ⟨2024, 1, 1, 0, 0, 0⟩, [([5, 6], [[1]])], [[2]]⟩]).2.2.passed :=
  claim_C1_amended zipInit allOkSink [97] [5] ⟨2024, 1, 1, 0, 0, 0⟩ true
    (fun c d => c + d.length) [some [1]] [some [1]]
    [⟨[97], ⟨2024, 1, 1, 0, 0, 0⟩, [([5, 6], [[1]])], [[2]]⟩]

end ZipStream
